import Mathlib

/-!
Verification of the detectorgraph repository's specification against its code.

The source under `src/` is the FancyVendingMachine example
(`common_test_list.h`): topic-state structs, the `ChangeAlgo` change-making
lookup table, the detectors (`UserBalanceDetector`, `SaleProcessor`,
`ProductStockManager`, `CoinBankManager`, `FinancesReportDetector`) and the
`FancyVendingMachine` processor container.  The framework core (Topic, Graph,
TopicRegistry, Lag, ProcessorContainer) is not present in `src/`; where a
claim depends on it, the corresponding definition is modelled from the spec
and marked as such in its doc comment.

Conventions:
* C++ `std::map<K, unsigned>` is embedded as a key-sorted association list
  `List (Nat × Nat)`; `operator[]` / insertion keep the list key-sorted,
  mirroring the ordered iteration of `std::map`.
* machine integers that stay small and non-negative are `Nat`; `int` fields
  that can conceptually go negative (`totalCents`, `count`) are `Int`.
* fallible operations (`min_element` on an empty range, `GetNewValue`)
  return `Option`.
-/

namespace ChangeAlgo

/-- `Draw = std::map<CoinType, unsigned>`: a key-sorted association list from
coin denomination to count. -/
abbrev Draw : Type := List (Nat × Nat)

/-- `draw.at(k)` under the invariant that `k` is a key of the draw (all draws
built by the table have exactly the coin set as keys); a missing key reads
as 0 here whereas `std::map::at` would throw. -/
def mapGet (d : Draw) (k : Nat) : Nat :=
  ((d.find? (fun p => p.1 == k)).map Prod.snd).getD 0

/-- `draw[k] = v`: sorted insert-or-assign, as `std::map::operator[]`. -/
def mapSet : Draw → Nat → Nat → Draw
  | [], k, v => [(k, v)]
  | (k', v') :: rest, k, v =>
    if k < k' then (k, v) :: (k', v') :: rest
    else if k = k' then (k, v) :: rest
    else (k', v') :: mapSet rest k v

/-- `draw[k] += 1`: sorted increment-or-insert-1, as in `IncrementedDraw`
(`operator[]` default-constructs the count to 0 before the increment). -/
def mapIncr : Draw → Nat → Draw
  | [], k => [(k, 1)]
  | (k', v') :: rest, k =>
    if k < k' then (k, 1) :: (k', v') :: rest
    else if k = k' then (k', v' + 1) :: rest
    else (k', v') :: mapIncr rest k

/-- `ChangeLookupTable::MakeEmptyDraw`: a draw with every coin of the set
mapped to count 0. -/
def makeEmptyDraw (coinSet : List Nat) : Draw :=
  coinSet.foldl (fun d c => mapSet d c 0) []

/-- `ChangeLookupTable::IncrementedDraw`. -/
def incrementedDraw (d : Draw) (denominationType : Nat) : Draw :=
  mapIncr d denominationType

/-- Total monetary value of a draw: sum over entries of denomination times
count (used to state what a lookup cell's draws amount to). -/
def drawValue (d : Draw) : Nat :=
  (d.map (fun p => p.1 * p.2)).sum

/-- `ChangeLookupTable::GetDrawScore`: total number of coins in a draw. -/
def getDrawScore (d : Draw) : Nat :=
  (d.map Prod.snd).sum

/-- One cell `lutt[coinIndex][j]` of the constructor's dynamic program, with
explicit fuel (the cell at column `j` recurses on column `j - den / dmin`;
the constructor's asserts give `den / dmin ≥ 1`, so fuel `j + 1` suffices).
`prev` is row `coinIndex - 1` (the all-empty row for `coinIndex = 0`),
`den` the coin denomination, `dmin` the minimum denomination.  The
`den / dmin = 0` branch is unreachable under the constructor's asserts and
conservatively copies the previous row, like the `denomination > target`
branch. -/
def buildCellF (S : List Nat) (prev : Nat → List Draw) (den dmin : Nat) :
    Nat → Nat → List Draw
  | 0, _ => []
  | fuel + 1, j =>
    if den = j * dmin then [mapIncr (makeEmptyDraw S) den]
    else if j * dmin < den then prev j
    else if den / dmin = 0 then prev j
    else
      prev j ++
        (buildCellF S prev den dmin fuel (j - den / dmin)).map
          (fun d => mapIncr d den)

/-- Row `coinIndex` of the constructor's table, as a function of the target
column index. -/
def buildRow (S : List Nat) (prev : Nat → List Draw) (den dmin : Nat) :
    Nat → List Draw :=
  fun j => buildCellF S prev den dmin (j + 1) j

/-- `mLookupRow = lutt.back()`: the last row of the table, built by folding
the rows over the coin set in order. -/
def lookupRow (S : List Nat) (dmin : Nat) : Nat → List Draw :=
  S.foldl (fun prev den => buildRow S prev den dmin) (fun _ => [])

/-- `ChangeLookupTable::GetChangeDraws`: `mLookupRow.at(change / dmin)`.
The asserts (`dmin ≠ 0`, `dmin ∣ change`, `change ≤ mMaxChange`) appear as
hypotheses of the theorems that use this. -/
def getChangeDraws (S : List Nat) (dmin change : Nat) : List Draw :=
  lookupRow S dmin (change / dmin)

/-- `ChangeLookupTable::IsDrawPossible`: every available-coin entry bounds
the draw's count for that coin. -/
def isDrawPossible (availableCoins : List (Nat × Nat)) (d : Draw) : Bool :=
  availableCoins.all (fun p => decide (mapGet d p.1 ≤ p.2))

/-- `std::min_element` with comparison `score d1 < score d2`: the first
element of minimal score, `none` on an empty range (where the C++ would
dereference `end()`). -/
def minElement (score : Draw → Nat) : List Draw → Option Draw
  | [] => none
  | x :: xs => some (xs.foldl (fun best d => if score d < score best then d else best) x)

/-- `ChangeLookupTable::GetSmallestChange(availableCoins, change)`: filter
the cell's draws by possibility, then take the minimum by score. -/
def getSmallestChange (availableCoins : List (Nat × Nat)) (S : List Nat)
    (dmin change : Nat) : Option Draw :=
  minElement getDrawScore
    ((getChangeDraws S dmin change).filter (fun d => isDrawPossible availableCoins d))

/-- `ChangeLookupTable::CanGiveChange`: whether any draw of the cell is
possible given the available coins. -/
def canGiveChange (availableCoins : List (Nat × Nat)) (S : List Nat)
    (dmin change : Nat) : Bool :=
  ((getChangeDraws S dmin change).countP (fun d => isDrawPossible availableCoins d)) != 0

end ChangeAlgo

/-- `StockState::ProductState` (`count` and `priceCents` are C++ `int`). -/
structure ProductState where
  count : Int
  priceCents : Int
deriving DecidableEq

/-- `SaleProcessor::CompleteEvaluation`: look the selected product up in the
stock; publish `SaleProcessed(productId, priceCents)` iff it is in stock,
affordable, and change can be given for the difference (`unsigned` conversion
of the non-negative difference modelled by `Int.toNat`).  `canGive` stands
for `mChangeAvailable.CanGiveChange`. -/
def saleProcessorComplete (products : List (Nat × ProductState)) (selectedId : Nat)
    (balance : Int) (canGive : Nat → Bool) : Option (Nat × Int) :=
  match products.find? (fun p => p.1 == selectedId) with
  | none => none
  | some (_, st) =>
    if st.count > 0 ∧ st.priceCents ≤ balance ∧
        canGive ((balance - st.priceCents).toNat) = true then
      some (selectedId, st.priceCents)
    else none

namespace ChangeAlgo

/-- The invariant carried by every cell of the dynamic program: keys lie in
the coin set and the monetary value is the cell's target. -/
def DrawInv (S : List Nat) (v : Nat) (d : Draw) : Prop :=
  (∀ p ∈ d, p.1 ∈ S) ∧ drawValue d = v

end ChangeAlgo

namespace DetectorGraph

variable {V σ : Type}

/-- Modelled from the spec: `Topic<T>`'s data (topic.hpp is not under
`src/`): `current` is the last fully-published value, `newValues` the
ordered sequence of values published in the current traversal (spec sec. 3). -/
structure TopicRec (V : Type) where
  current : V
  newValues : List V
deriving DecidableEq

/-- Modelled from the spec: `Topic::HasNewValue` (spec sec. 4.1). -/
def hasNewValue {V : Type} (r : TopicRec V) : Bool :=
  !r.newValues.isEmpty

/-- Modelled from the spec: `Topic::GetNewValue` returns the last element
of `new_values`; the caller must have checked `HasNewValue`, so the
partiality is an `Option` here. -/
def getNewValue {V : Type} (r : TopicRec V) : Option V :=
  r.newValues.getLast?

/-- Modelled from the spec: `Topic::DispatchIntoSubscribers`
(spec sec. 4.1): for each value in `new_values`, in order, for each
registered subscriber, in registration order, deliver the value. -/
def dispatchIntoSubscribers {V : Type} (newValues : List V) (subscribers : List Nat) :
    List (Nat × V) :=
  (newValues.map (fun v => subscribers.map (fun s => (s, v)))).flatten

/-- Modelled from the spec: a registered detector (detector.hpp is not
under `src/`).  `subs` is the ordered subscription list of topic ids,
`pubs` the topic ids declared through `SetupPublishing`;
`evaluate`/`complete` are the user callbacks over the private state `σ`,
returning the new state, the values published immediately, and the values
published through a `FuturePublisher` (seeds of the next traversal,
spec sec. 4.8). -/
structure DetRec (V σ : Type) where
  subs : List Nat
  pubs : List Nat
  evaluate : Nat → V → σ → σ × List (Nat × V) × List (Nat × V)
  complete : σ → σ × List (Nat × V) × List (Nat × V)
  state : σ

/-- Modelled from the spec: the Graph state (graph.hpp is not under
`src/`): topics indexed by topic identity, detectors in registration
order, the computed evaluation order, the pending future publications, and
the per-topic flag marking `Lagged<T>` topics (used only by the
topological ordering, spec sec. 4.5). -/
structure GraphState (V σ : Type) where
  topics : List (TopicRec V)
  dets : List (DetRec V σ)
  order : List Nat
  futures : List (Nat × V)
  lagged : Nat → Bool

/-- One observable engine callback: `Evaluate` of a detector on a topic's
value, or `CompleteEvaluation` of a detector. -/
inductive Event (V : Type) where
  | eval : Nat → Nat → V → Event V
  | comp : Nat → Event V
deriving DecidableEq

/-- The `new_values` sequence of topic `tid` (empty when out of range). -/
def topicVals (g : GraphState V σ) (tid : Nat) : List V :=
  ((g.topics[tid]?).map TopicRec.newValues).getD []

/-- Modelled from the spec: `Topic::Publish` appends to `new_values`
(spec sec. 4.1).  Publishing to an unregistered topic aborts in the C++
(`TopicNotFound`); out-of-range ids are a no-op here and the claims only
involve registered topics. -/
def publish (g : GraphState V σ) (p : Nat × V) : GraphState V σ :=
  match g.topics[p.1]? with
  | none => g
  | some r =>
    { g with topics := g.topics.set p.1 { r with newValues := r.newValues ++ [p.2] } }

/-- Apply a batch of publications in order. -/
def applyPubs (g : GraphState V σ) (ps : List (Nat × V)) : GraphState V σ :=
  ps.foldl publish g

/-- Record future publications for the start of the next `ProcessData`. -/
def addFutures (g : GraphState V σ) (fs : List (Nat × V)) : GraphState V σ :=
  { g with futures := g.futures ++ fs }

/-- Whether any subscribed topic of `d` is dirty (has pending new values). -/
def anyDirty (g : GraphState V σ) (d : DetRec V σ) : Bool :=
  d.subs.any (fun tid => !(topicVals g tid).isEmpty)

/-- Modelled from the spec: one detector visit of the traversal
(spec sec. 4.5 step 2): skip when no subscribed topic is dirty; otherwise
for each subscribed topic in subscription order, for each of its new
values in publish order, call `Evaluate`; then call `CompleteEvaluation`.
Publications are applied as they are produced; the private state is
written back at the end of the visit.  Returns the updated graph and the
trace of callbacks. -/
def evalStep (d : DetRec V σ) (i tid : Nat)
    (acc : GraphState V σ × σ × List (Event V)) (v : V) :
    GraphState V σ × σ × List (Event V) :=
  let out := d.evaluate tid v acc.2.1
  (addFutures (applyPubs acc.1 out.2.1) out.2.2, out.1, acc.2.2 ++ [Event.eval i tid v])

/-- Dispatch of one subscribed topic to the visited detector: fold
`Evaluate` over the snapshot of the topic's `new_values`, in publish
order. -/
def topicStep (d : DetRec V σ) (i : Nat)
    (acc : GraphState V σ × σ × List (Event V)) (tid : Nat) :
    GraphState V σ × σ × List (Event V) :=
  (topicVals acc.1 tid).foldl (evalStep d i tid) acc

def visitDet (g : GraphState V σ) (i : Nat) : GraphState V σ × List (Event V) :=
  match g.dets[i]? with
  | none => (g, [])
  | some d =>
    if anyDirty g d then
      let res := d.subs.foldl (topicStep d i) (g, d.state, [])
      let out := d.complete res.2.1
      let g2 := addFutures (applyPubs res.1 out.2.1) out.2.2
      ({ g2 with dets := g2.dets.set i { d with state := out.1 } },
        res.2.2 ++ [Event.comp i])
    else (g, [])

/-- Visit a list of detectors in order, concatenating traces. -/
def traverseList (g : GraphState V σ) (l : List Nat) : GraphState V σ × List (Event V) :=
  l.foldl (fun acc i =>
    let r := visitDet acc.1 i
    (r.1, acc.2 ++ r.2)) (g, [])

/-- Modelled from the spec: end-of-traversal consolidation (spec sec. 4.1
and 4.5 step 3): the last new value becomes `current` and `new_values` is
cleared, for every topic. -/
def consolidate (g : GraphState V σ) : GraphState V σ :=
  { g with topics := g.topics.map (fun r =>
      match r.newValues.getLast? with
      | some v => ⟨v, []⟩
      | none => r) }

/-- Modelled from the spec: the seeding at the start of `ProcessData`
(spec secs. 4.7 and 4.8): pending future publications land first, then the
externally posted values; the pending list is cleared. -/
def seedPhase (g : GraphState V σ) (ext : List (Nat × V)) : GraphState V σ :=
  applyPubs { g with futures := [] } (g.futures ++ ext)

/-- Modelled from the spec: `ProcessorContainer::ProcessData`
(spec sec. 4.7): seed the posted value (after pending futures), run one
traversal over the evaluation order, consolidate every topic.
`ProcessOutput` is the host's hook and reads the returned state. -/
def processData (g : GraphState V σ) (t0 : Nat) (v0 : V) :
    GraphState V σ × List (Event V) :=
  let g1 := seedPhase g [(t0, v0)]
  let r := traverseList g1 g1.order
  (consolidate r.1, r.2)

/-- Modelled from the spec: the dependency edge of the ordering DAG
(spec sec. 4.5): detector `a` precedes detector `b` iff `a` publishes a
topic `b` subscribes to, edges carrying a `Lagged<T>` topic excluded. -/
def hasEdge (g : GraphState V σ) (a b : Nat) : Bool :=
  match g.dets[a]?, g.dets[b]? with
  | some da, some db =>
    da.pubs.any (fun tid => !g.lagged tid && db.subs.contains tid)
  | _, _ => false

/-- Whether all predecessors of `b` in the non-lagged DAG are already
emitted: no detector of the graph that still precedes `b` is missing. -/
def eligible (g : GraphState V σ) (emitted : List Nat) (b : Nat) : Bool :=
  (List.range g.dets.length).all (fun a => !hasEdge g a b || emitted.contains a)

/-- The next detector the ordering emits: the first (in registration
order) not-yet-emitted detector all of whose non-lagged predecessors are
emitted. -/
def topoStep (g : GraphState V σ) (emitted : List Nat) : Option Nat :=
  ((List.range g.dets.length).filter (fun b => !emitted.contains b)).find?
    (fun b => eligible g emitted b)

/-- Modelled from the spec: the topological ordering computed before the
first evaluation (spec sec. 4.5): repeatedly emit the
registration-earliest detector whose non-lagged predecessors are all
emitted; if none exists while detectors remain, the graph is cyclic
(`CyclicGraph`). -/
def topoAux (g : GraphState V σ) : Nat → List Nat → Option (List Nat)
  | 0, emitted =>
    if emitted.length = g.dets.length then some emitted else none
  | fuel + 1, emitted =>
    match topoStep g emitted with
    | none => if emitted.length = g.dets.length then some emitted else none
    | some b => topoAux g fuel (emitted ++ [b])

/-- The evaluation order: `none` models the fatal `CyclicGraph` error. -/
def evalOrder (g : GraphState V σ) : Option (List Nat) :=
  topoAux g g.dets.length []

/-- Modelled from the spec: `TopicRegistry::Resolve<T>` (spec sec. 4.2,
topicregistry.hpp is not under `src/`): keyed by the per-type identity,
return the existing topic, or create one holding the default-constructed
value, insert it and return it. -/
def resolve {V : Type} (reg : List (Nat × TopicRec V)) (key : Nat) (defaultV : V) :
    List (Nat × TopicRec V) × TopicRec V :=
  match reg.lookup key with
  | some tp => (reg, tp)
  | none => (reg ++ [(key, ⟨defaultV, []⟩)], ⟨defaultV, []⟩)

/-- Every topic's `new_values` sequence of `g'` extends that of `g`. -/
def GrowsTo (g g' : GraphState V σ) : Prop :=
  ∀ tid, ∃ ext, topicVals g' tid = topicVals g tid ++ ext

/-- `FancyVendingMachine::ProcessOutput` (from the source): for each of the
three output topics — sale, change release, finances report — if
`HasNewValue()` then read `GetNewValue()` (the printed payloads); the
drained values are returned. -/
def processOutputDrain {V : Type} (saleTopic changeReleaseTopic financeReportTopic :
    TopicRec V) : Option V × Option V × Option V :=
  ((if hasNewValue saleTopic then getNewValue saleTopic else none),
   (if hasNewValue changeReleaseTopic then getNewValue changeReleaseTopic else none),
   (if hasNewValue financeReportTopic then getNewValue financeReportTopic else none))

/-- A two-detector example graph over `Nat` values (D0 : topic 0 → topic 1,
D1 : topic 1 → topic 2, the spec's scenario S1), used to instantiate the
engine theorems. -/
def sampleGraph : GraphState Nat (Option Nat) :=
  ⟨[⟨0, []⟩, ⟨0, []⟩, ⟨0, []⟩],
   [⟨[0], [1], fun _ v _ => (some v, [], []),
      fun s => (s, [(1, 10 * s.getD 0)], []), none⟩,
    ⟨[1], [2], fun _ v _ => (some v, [], []),
      fun s => (s, [(2, 10 * s.getD 0)], []), none⟩],
   [0, 1], [], fun _ => false⟩

/-- Modelled from the spec: a detector only writes to topics it declared
through `SetupPublishing` (spec sec. 4.4; publishing elsewhere is the
fatal `TopicNotFound`). -/
def DeclOK (d : DetRec V σ) : Prop :=
  (∀ tid v s, (∀ p ∈ (d.evaluate tid v s).2.1, p.1 ∈ d.pubs) ∧
    (∀ p ∈ (d.evaluate tid v s).2.2, p.1 ∈ d.pubs)) ∧
  (∀ s, (∀ p ∈ (d.complete s).2.1, p.1 ∈ d.pubs) ∧
    (∀ p ∈ (d.complete s).2.2, p.1 ∈ d.pubs))

/-- Two optional detector records with the same wiring (subscriptions,
declared outputs and callbacks); only the private state may differ. -/
def ShapeEq : Option (DetRec V σ) → Option (DetRec V σ) → Prop
  | none, none => True
  | some d1, some d2 =>
    d1.subs = d2.subs ∧ d1.pubs = d2.pubs ∧
      d1.evaluate = d2.evaluate ∧ d1.complete = d2.complete
  | _, _ => False

/-- A minimal Lag graph over `Nat`: topic 0 is `T`, topic 1 is
`Lagged<T>`, and the only detector is the `Lag` (buffer in `Option Nat`,
wrapper the identity). -/
def lagGraph : GraphState Nat (Option Nat) :=
  ⟨[⟨0, []⟩, ⟨0, []⟩],
   [⟨[0], [1], fun _ v _ => (some v, [], []),
      fun s => (s, [], match s with | some v => [(1, v)] | none => []), none⟩],
   [0], [], fun tid => tid == 1⟩

end DetectorGraph

namespace SharedPayload

/-- `ChangeAvailable` (from the source): a copy of the coin stock plus a
`shared_ptr<const ChangeLookupTable>`, modelled as a reference (cell id)
into an explicit store of payloads; mutating a shared payload would mean
replacing a store cell's content. -/
structure ChangeAvailableRef where
  mCoins : List (Nat × Nat)
  tableRef : Nat
deriving DecidableEq

/-- `CoinBankManager` (from the source) together with the payload store
and the sequence of `ChangeAvailable` values it has published:
`mAvailable` is its coin stock, `tableRef` its `mpChangeLookupTable`
(allocated once at construction). -/
structure CBMachine (P : Type) where
  store : List P
  published : List ChangeAvailableRef
  mAvailable : List (Nat × Nat)
  tableRef : Nat

/-- The inputs `CoinBankManager` subscribes to. -/
inductive CBEvent where
  | returnChange : Nat → CBEvent
  | refillChange : List (Nat × Nat) → CBEvent
  | coinInserted : Nat → CBEvent
  | complete : CBEvent

/-- One `CoinBankManager` callback (from the source):
`Evaluate(ReturnChange)` reads the table through the const shared pointer
and publishes `ReleaseCoins` (not tracked here) — no payload write;
`Evaluate(RefillChange)` and `Evaluate(CoinInserted)` add to
`mAvailable`; `CompleteEvaluation` publishes a fresh
`ChangeAvailable(mAvailable, mpChangeLookupTable)` — a new value sharing
the same table reference. -/
def cbmStep {P : Type} (m : CBMachine P) : CBEvent → CBMachine P
  | .returnChange _ => m
  | .refillChange refill =>
    { m with
        mAvailable := refill.foldl
          (fun av p => ChangeAlgo.mapSet av p.1 (ChangeAlgo.mapGet av p.1 + p.2))
          m.mAvailable }
  | .coinInserted coin =>
    { m with
        mAvailable := ChangeAlgo.mapSet m.mAvailable coin
          (ChangeAlgo.mapGet m.mAvailable coin + 1) }
  | .complete =>
    { m with published := m.published ++ [⟨m.mAvailable, m.tableRef⟩] }

/-- `SaleProcessor::Evaluate(const ChangeAvailable&)` (from the source):
`mChangeAvailable = changeAvailable` — copies the stock and the shared
pointer; the store is returned unchanged because the body performs no
write through the pointer. -/
def saleProcessorEvalCA {P : Type} (store : List P) (a : ChangeAvailableRef)
    (_old : ChangeAvailableRef) : List P × ChangeAvailableRef :=
  (store, a)

/-- `FinancesReportDetector::Evaluate(const ChangeAvailable&)` (from the
source): `mChangeAvailable = changeAvailable` — same copying assignment. -/
def financesReportEvalCA {P : Type} (store : List P) (a : ChangeAvailableRef)
    (_old : ChangeAvailableRef) : List P × ChangeAvailableRef :=
  (store, a)

end SharedPayload


namespace ChangeAlgo

/-- Incrementing the count of coin `k` adds `k` to the draw's monetary
value, whether the key is present or freshly inserted. -/
lemma mapIncr_value (k : Nat) : ∀ d : Draw, drawValue (mapIncr d k) = drawValue d + k := by
  intro d
  induction d with
  | nil => simp [mapIncr, drawValue]
  | cons p rest ih =>
    obtain ⟨k', v'⟩ := p
    by_cases h1 : k < k'
    · have he : mapIncr ((k', v') :: rest) k = (k, 1) :: (k', v') :: rest := by
        simp [mapIncr, h1]
      rw [he]
      simp only [drawValue, List.map_cons, List.sum_cons]
      ring
    · by_cases h2 : k = k'
      · subst h2
        have he : mapIncr ((k, v') :: rest) k = (k, v' + 1) :: rest := by
          simp [mapIncr, h1]
        rw [he]
        simp only [drawValue, List.map_cons, List.sum_cons]
        ring
      · have he : mapIncr ((k', v') :: rest) k = (k', v') :: mapIncr rest k := by
          simp [mapIncr, h1, h2]
        rw [he]
        simp only [drawValue, List.map_cons, List.sum_cons] at ih ⊢
        omega

/-- Incrementing at a coin of `S` keeps all keys inside `S`. -/
lemma mapIncr_keys {S : List Nat} {k : Nat} (hk : k ∈ S) :
    ∀ d : Draw, (∀ p ∈ d, p.1 ∈ S) → ∀ p ∈ mapIncr d k, p.1 ∈ S := by
  intro d
  induction d with
  | nil => intro _ p hp; simp [mapIncr] at hp; simp [hp, hk]
  | cons q rest ih =>
    obtain ⟨k', v'⟩ := q
    intro hall p hp
    by_cases h1 : k < k'
    · have he : mapIncr ((k', v') :: rest) k = (k, 1) :: (k', v') :: rest := by
        simp [mapIncr, h1]
      rw [he] at hp
      rcases List.mem_cons.mp hp with h | h
      · simp [h, hk]
      · exact hall _ h
    · by_cases h2 : k = k'
      · subst h2
        have he : mapIncr ((k, v') :: rest) k = (k, v' + 1) :: rest := by
          simp [mapIncr, h1]
        rw [he] at hp
        rcases List.mem_cons.mp hp with h | h
        · simp [h, hk]
        · exact hall _ (List.mem_cons_of_mem _ h)
      · have he : mapIncr ((k', v') :: rest) k = (k', v') :: mapIncr rest k := by
          simp [mapIncr, h1, h2]
        rw [he] at hp
        rcases List.mem_cons.mp hp with h | h
        · exact h ▸ hall _ (List.mem_cons_self _ _)
        · exact ih (fun q hq => hall q (List.mem_cons_of_mem _ hq)) p h

/-- `mapSet _ _ 0` preserves "all counts are 0 and all keys lie in `S`". -/
lemma mapSet_zero {S : List Nat} {k : Nat} (hk : k ∈ S) :
    ∀ d : Draw, (∀ p ∈ d, p.2 = 0 ∧ p.1 ∈ S) →
      ∀ p ∈ mapSet d k 0, p.2 = 0 ∧ p.1 ∈ S := by
  intro d
  induction d with
  | nil => intro _ p hp; simp [mapSet] at hp; simp [hp, hk]
  | cons q rest ih =>
    obtain ⟨k', v'⟩ := q
    intro hall p hp
    by_cases h1 : k < k'
    · have he : mapSet ((k', v') :: rest) k 0 = (k, 0) :: (k', v') :: rest := by
        simp [mapSet, h1]
      rw [he] at hp
      rcases List.mem_cons.mp hp with h | h
      · simp [h, hk]
      · exact hall _ h
    · by_cases h2 : k = k'
      · subst h2
        have he : mapSet ((k, v') :: rest) k 0 = (k, 0) :: rest := by
          simp [mapSet, h1]
        rw [he] at hp
        rcases List.mem_cons.mp hp with h | h
        · simp [h, hk]
        · exact hall _ (List.mem_cons_of_mem _ h)
      · have he : mapSet ((k', v') :: rest) k 0 = (k', v') :: mapSet rest k 0 := by
          simp [mapSet, h1, h2]
        rw [he] at hp
        rcases List.mem_cons.mp hp with h | h
        · exact h ▸ hall _ (List.mem_cons_self _ _)
        · exact ih (fun q hq => hall q (List.mem_cons_of_mem _ hq)) p h

/-- The table's empty draw: every count 0, every key a coin of the set. -/
lemma makeEmptyDraw_spec (S : List Nat) :
    ∀ p ∈ makeEmptyDraw S, p.2 = 0 ∧ p.1 ∈ S := by
  have aux : ∀ (rest : List Nat) (init : Draw), (∀ c ∈ rest, c ∈ S) →
      (∀ p ∈ init, p.2 = 0 ∧ p.1 ∈ S) →
      ∀ p ∈ rest.foldl (fun d c => mapSet d c 0) init, p.2 = 0 ∧ p.1 ∈ S := by
    intro rest
    induction rest with
    | nil => intro init _ hinit p hp; exact hinit p hp
    | cons c cs ih =>
      intro init hrest hinit p hp
      simp only [List.foldl_cons] at hp
      exact ih (mapSet init c 0) (fun x hx => hrest x (by simp [hx]))
        (mapSet_zero (hrest c (by simp)) init hinit) p hp
  have h0 : ∀ p ∈ ([] : Draw), p.2 = 0 ∧ p.1 ∈ S := by simp
  simpa [makeEmptyDraw] using aux S [] (fun c hc => hc) h0

/-- A draw whose counts are all 0 has monetary value 0. -/
lemma drawValue_zero {d : Draw} (h : ∀ p ∈ d, p.2 = 0) : drawValue d = 0 := by
  unfold drawValue
  apply List.sum_eq_zero
  intro x hx
  obtain ⟨p, hp, rfl⟩ := List.mem_map.mp hx
  simp [h p hp]

lemma buildCellF_inv {S : List Nat} {den dmin : Nat} (hden : den ∈ S)
    (hdvd : dmin ∣ den) (hle : dmin ≤ den) (hpos : 0 < dmin)
    {prev : Nat → List Draw}
    (hprev : ∀ j, ∀ d ∈ prev j, DrawInv S (j * dmin) d) :
    ∀ fuel j, j < fuel → ∀ d ∈ buildCellF S prev den dmin fuel j, DrawInv S (j * dmin) d := by
  intro fuel
  induction fuel with
  | zero => intro j hj; omega
  | succ fuel ih =>
    intro j hj d hd
    simp only [buildCellF] at hd
    by_cases h1 : den = j * dmin
    · rw [if_pos h1] at hd
      simp only [List.mem_singleton] at hd
      subst hd
      constructor
      · exact mapIncr_keys hden _ (fun p hp => (makeEmptyDraw_spec S p hp).2)
      · rw [mapIncr_value, drawValue_zero (fun p hp => (makeEmptyDraw_spec S p hp).1)]
        omega
    · rw [if_neg h1] at hd
      by_cases h2 : j * dmin < den
      · rw [if_pos h2] at hd
        exact hprev j d hd
      · rw [if_neg h2] at hd
        have hstep1 : 1 ≤ den / dmin := (Nat.one_le_div_iff hpos).mpr hle
        have hsteps : ¬ den / dmin = 0 := by omega
        rw [if_neg hsteps] at hd
        rcases List.mem_append.mp hd with h | h
        · exact hprev j d h
        · obtain ⟨d', hd', rfl⟩ := List.mem_map.mp h
          have hden_lt : den < j * dmin := by omega
          have hsteps_mul : den / dmin * dmin = den := Nat.div_mul_cancel hdvd
          have hsteps_lt : den / dmin < j := by
            have h' : den / dmin * dmin < j * dmin := by rw [hsteps_mul]; omega
            exact Nat.lt_of_mul_lt_mul_right h'
          have hrec : j - den / dmin < fuel := by omega
          obtain ⟨hkeys, hval⟩ := ih (j - den / dmin) hrec d' hd'
          constructor
          · exact mapIncr_keys hden _ hkeys
          · rw [mapIncr_value, hval, Nat.sub_mul, hsteps_mul]
            omega

/-- The final lookup row (the fold of all coin rows) satisfies the cell
invariant: each draw in column `j` uses only coins of the set and is worth
exactly `j * dmin`. -/
lemma lookupRow_inv {S : List Nat} {dmin : Nat} (hpos : 0 < dmin)
    (hmin : ∀ c ∈ S, dmin ≤ c) (hdvd : ∀ c ∈ S, dmin ∣ c) :
    ∀ j, ∀ d ∈ lookupRow S dmin j, DrawInv S (j * dmin) d := by
  have aux : ∀ (rest : List Nat) (prev : Nat → List Draw), (∀ c ∈ rest, c ∈ S) →
      (∀ j, ∀ d ∈ prev j, DrawInv S (j * dmin) d) →
      ∀ j, ∀ d ∈ rest.foldl (fun p den => buildRow S p den dmin) prev j,
        DrawInv S (j * dmin) d := by
    intro rest
    induction rest with
    | nil => intro prev _ hprev j d hd; exact hprev j d hd
    | cons den dens ih =>
      intro prev hrest hprev j d hd
      have hden : den ∈ S := hrest den (by simp)
      simp only [List.foldl_cons] at hd
      refine ih _ (fun c hc => hrest c (by simp [hc])) ?_ j d hd
      intro j' d' hd'
      exact buildCellF_inv hden (hdvd den hden) (hmin den hden) hpos hprev
        (j' + 1) j' (by omega) d' hd'
  intro j d hd
  have h0 : ∀ j', ∀ d' ∈ (fun _ : Nat => ([] : List Draw)) j', DrawInv S (j' * dmin) d' := by
    simp
  exact aux S (fun _ => []) (fun c hc => hc) h0 j d hd

/-- For positive denominations, the cell at target column 0 only copies the
previous row: no single coin equals 0 and every denomination exceeds 0. -/
lemma buildCellF_zero {S : List Nat} {prev : Nat → List Draw} {den dmin : Nat}
    (hpos : 0 < den) (fuel : Nat) :
    buildCellF S prev den dmin (fuel + 1) 0 = prev 0 := by
  simp only [buildCellF, Nat.zero_mul]
  rw [if_neg (by omega), if_pos hpos]

/-- With every coin positive, the lookup cell for change 0 is empty: the
constructor never seeds column 0 and only copies emptiness downward. -/
lemma lookupRow_zero {S : List Nat} {dmin : Nat} (hpos : ∀ c ∈ S, 0 < c) :
    lookupRow S dmin 0 = [] := by
  have aux : ∀ (rest : List Nat) (prev : Nat → List Draw), (∀ c ∈ rest, 0 < c) →
      prev 0 = [] → (rest.foldl (fun p den => buildRow S p den dmin) prev) 0 = [] := by
    intro rest
    induction rest with
    | nil => intro prev _ h; exact h
    | cons den dens ih =>
      intro prev hrest h
      simp only [List.foldl_cons]
      refine ih _ (fun c hc => hrest c (by simp [hc])) ?_
      show buildCellF S prev den dmin 1 0 = []
      rw [buildCellF_zero (hrest den (by simp)) 0, h]
  exact aux S (fun _ => []) hpos rfl

/-- The running minimum of `std::min_element`'s fold is a member of the
candidates and scores no worse than any of them. -/
lemma minFoldl_spec (score : Draw → Nat) :
    ∀ (xs : List Draw) (best : Draw),
      (xs.foldl (fun b d => if score d < score b then d else b) best ∈ best :: xs) ∧
      (∀ d ∈ best :: xs,
        score (xs.foldl (fun b d => if score d < score b then d else b) best) ≤ score d) := by
  intro xs
  induction xs with
  | nil =>
    intro best
    refine ⟨by simp, ?_⟩
    intro d hd
    simp only [List.foldl_nil]
    rcases List.mem_cons.mp hd with h | h
    · rw [h]
    · simp at h
  | cons x xs ih =>
    intro best
    simp only [List.foldl_cons]
    by_cases h : score x < score best
    · rw [if_pos h]
      obtain ⟨hmem, hmin⟩ := ih x
      refine ⟨?_, ?_⟩
      · rcases List.mem_cons.mp hmem with h' | h'
        · rw [h']; simp
        · simp [h']
      · intro d hd
        rcases List.mem_cons.mp hd with h' | h'
        · subst h'
          have hx := hmin x (by simp)
          omega
        · exact hmin d h'
    · rw [if_neg h]
      obtain ⟨hmem, hmin⟩ := ih best
      refine ⟨?_, ?_⟩
      · rcases List.mem_cons.mp hmem with h' | h'
        · rw [h']; simp
        · simp [h']
      · intro d hd
        rcases List.mem_cons.mp hd with h' | h'
        · subst h'
          exact hmin d (by simp)
        · rcases List.mem_cons.mp h' with h'' | h''
          · subst h''
            have hb := hmin best (by simp)
            omega
          · exact hmin d (by simp [h''])

/-- `min_element` on a non-empty range returns the least-scoring member. -/
lemma minElement_spec (score : Draw → Nat) (l : List Draw) (h : l ≠ []) :
    ∃ m, minElement score l = some m ∧ m ∈ l ∧ ∀ d ∈ l, score m ≤ score d := by
  cases l with
  | nil => exact absurd rfl h
  | cons x xs =>
    obtain ⟨hmem, hmin⟩ := minFoldl_spec score xs x
    exact ⟨_, rfl, hmem, hmin⟩

end ChangeAlgo

/-- Claim C8: for every constructed ChangeLookupTable (all coins positive,
per the constructor's asserts) and every coin stock, `CanGiveChange(s, 0)`
returns false, because construction leaves the lookup cell for change 0
empty; consequently `SaleProcessor::CompleteEvaluation` never publishes a
`SaleProcessed` when the user's balance exactly equals the selected
product's price. -/
theorem claim_C8 (S : List Nat) (dmin : Nat) (avail : List (Nat × Nat))
    (hpos : ∀ c ∈ S, 0 < c) :
    ChangeAlgo.canGiveChange avail S dmin 0 = false ∧
    ∀ (products : List (Nat × ProductState)) (selectedId : Nat) (balance : Int),
      (∀ pid st, products.find? (fun p => p.1 == selectedId) = some (pid, st) →
        st.priceCents = balance) →
      saleProcessorComplete products selectedId balance
        (ChangeAlgo.canGiveChange avail S dmin) = none := by
  have hempty : ChangeAlgo.getChangeDraws S dmin 0 = [] := by
    unfold ChangeAlgo.getChangeDraws
    rw [Nat.zero_div]
    exact ChangeAlgo.lookupRow_zero hpos
  have hfalse : ChangeAlgo.canGiveChange avail S dmin 0 = false := by
    unfold ChangeAlgo.canGiveChange
    rw [hempty]
    rfl
  refine ⟨hfalse, ?_⟩
  intro products selectedId balance hprice
  simp only [saleProcessorComplete]
  cases hfind : products.find? (fun p => p.1 == selectedId) with
  | none => rfl
  | some pst =>
    obtain ⟨pid, st⟩ := pst
    have hb : st.priceCents = balance := hprice pid st hfind
    have hcond : ¬ (st.count > 0 ∧ st.priceCents ≤ balance ∧
        ChangeAlgo.canGiveChange avail S dmin ((balance - st.priceCents).toNat) = true) := by
      rintro ⟨_, _, h3⟩
      rw [hb] at h3
      simp only [sub_self, Int.toNat_zero] at h3
      rw [hfalse] at h3
      exact absurd h3 (by simp)
    show (if st.count > 0 ∧ st.priceCents ≤ balance ∧
        ChangeAlgo.canGiveChange avail S dmin ((balance - st.priceCents).toNat) = true then
        some (selectedId, st.priceCents) else none) = none
    rw [if_neg hcond]

/-- Claim C8, instantiated: the example's coin set, a concrete stock, and a
product whose price equals the balance. -/
theorem claim_C8_witness :
    ChangeAlgo.canGiveChange [(5, 3)] [5, 10, 25, 50, 100] 5 0 = false ∧
    ∀ (products : List (Nat × ProductState)) (selectedId : Nat) (balance : Int),
      (∀ pid st, products.find? (fun p => p.1 == selectedId) = some (pid, st) →
        st.priceCents = balance) →
      saleProcessorComplete products selectedId balance
        (ChangeAlgo.canGiveChange [(5, 3)] [5, 10, 25, 50, 100] 5) = none :=
  claim_C8 [5, 10, 25, 50, 100] 5 [(5, 3)] (by decide)

/-- Claim C9: for every ChangeLookupTable built from coin set `S` and max
change `M` satisfying the constructor's asserts, and every change amount
`0 < change ≤ M` divisible by the minimum denomination, every draw in
`GetChangeDraws(change)` assigns counts only to coins of `S` and its total
monetary value is exactly `change`. -/
theorem claim_C9 (S : List Nat) (dmin M change : Nat)
    (hmem : dmin ∈ S) (hmin : ∀ c ∈ S, dmin ≤ c) (hpos : 0 < dmin)
    (hdvd : ∀ c ∈ S, dmin ∣ c) (hMdvd : dmin ∣ M)
    (hc0 : 0 < change) (hcM : change ≤ M) (hcd : dmin ∣ change) :
    ∀ d ∈ ChangeAlgo.getChangeDraws S dmin change,
      (∀ p ∈ d, p.1 ∈ S) ∧ ChangeAlgo.drawValue d = change := by
  intro d hd
  simp only [ChangeAlgo.getChangeDraws] at hd
  obtain ⟨hk, hv⟩ := ChangeAlgo.lookupRow_inv hpos hmin hdvd (change / dmin) d hd
  exact ⟨hk, by rw [hv, Nat.div_mul_cancel hcd]⟩

/-- Claim C9, instantiated at the example's table (coins 5..100, max 300),
change 15, and the three-nickel draw of that cell. -/
theorem claim_C9_witness :
    [(5, 3), (10, 0), (25, 0), (50, 0), (100, 0)]
        ∈ ChangeAlgo.getChangeDraws [5, 10, 25, 50, 100] 5 15 ∧
    ChangeAlgo.drawValue [(5, 3), (10, 0), (25, 0), (50, 0), (100, 0)] = 15 :=
  ⟨by decide,
    (claim_C9 [5, 10, 25, 50, 100] 5 300 15 (by decide) (by decide) (by decide)
      (by decide) (by decide) (by decide) (by decide) (by decide)
      [(5, 3), (10, 0), (25, 0), (50, 0), (100, 0)] (by decide)).2⟩

/-- Claim C10: when at least one draw of `GetChangeDraws(change)` is
possible given the available coins, `GetSmallestChange(availableCoins,
change)` returns a possible draw whose coin count is minimal among all
possible draws of that cell. -/
theorem claim_C10 (availableCoins : List (Nat × Nat)) (S : List Nat) (dmin change : Nat)
    (hex : ∃ d ∈ ChangeAlgo.getChangeDraws S dmin change,
      ChangeAlgo.isDrawPossible availableCoins d = true) :
    ∃ m, ChangeAlgo.getSmallestChange availableCoins S dmin change = some m ∧
      ChangeAlgo.isDrawPossible availableCoins m = true ∧
      m ∈ ChangeAlgo.getChangeDraws S dmin change ∧
      ∀ d ∈ ChangeAlgo.getChangeDraws S dmin change,
        ChangeAlgo.isDrawPossible availableCoins d = true →
        ChangeAlgo.getDrawScore m ≤ ChangeAlgo.getDrawScore d := by
  obtain ⟨d0, hd0, hp0⟩ := hex
  have hne : (ChangeAlgo.getChangeDraws S dmin change).filter
      (fun d => ChangeAlgo.isDrawPossible availableCoins d) ≠ [] :=
    List.ne_nil_of_mem (List.mem_filter.mpr ⟨hd0, hp0⟩)
  obtain ⟨m, hsome, hmem, hmin⟩ := ChangeAlgo.minElement_spec ChangeAlgo.getDrawScore _ hne
  obtain ⟨hcell, hposs⟩ := List.mem_filter.mp hmem
  refine ⟨m, hsome, hposs, hcell, ?_⟩
  intro d hd hp
  exact hmin d (List.mem_filter.mpr ⟨hd, hp⟩)

/-- Claim C10, instantiated at the example's table, change 15, and a stock
with plenty of every coin. -/
theorem claim_C10_witness :
    ∃ m, ChangeAlgo.getSmallestChange [(5, 10), (10, 10), (25, 10), (50, 10), (100, 10)]
        [5, 10, 25, 50, 100] 5 15 = some m ∧
      ChangeAlgo.isDrawPossible [(5, 10), (10, 10), (25, 10), (50, 10), (100, 10)] m = true ∧
      m ∈ ChangeAlgo.getChangeDraws [5, 10, 25, 50, 100] 5 15 ∧
      ∀ d ∈ ChangeAlgo.getChangeDraws [5, 10, 25, 50, 100] 5 15,
        ChangeAlgo.isDrawPossible [(5, 10), (10, 10), (25, 10), (50, 10), (100, 10)] d = true →
        ChangeAlgo.getDrawScore m ≤ ChangeAlgo.getDrawScore d :=
  claim_C10 [(5, 10), (10, 10), (25, 10), (50, 10), (100, 10)] [5, 10, 25, 50, 100] 5 15
    (by decide)

namespace DetectorGraph

variable {V σ : Type}

lemma lookup_append_of_none {V : Type} (reg : List (Nat × TopicRec V)) (key : Nat)
    (tp : TopicRec V) (h : reg.lookup key = none) :
    (reg ++ [(key, tp)]).lookup key = some tp := by
  induction reg with
  | nil => simp [List.lookup]
  | cons p rest ih =>
    obtain ⟨k, v⟩ := p
    by_cases hk : key = k
    · subst hk
      simp [List.lookup] at h
    · have hk' : (key == k) = false := by simpa using hk
      simp only [List.cons_append, List.lookup, hk'] at h ⊢
      exact ih h

lemma lookup_none_not_mem {V : Type} (reg : List (Nat × TopicRec V)) (key : Nat)
    (h : reg.lookup key = none) : key ∉ reg.map Prod.fst := by
  induction reg with
  | nil => simp
  | cons p rest ih =>
    obtain ⟨k, v⟩ := p
    by_cases hk : key = k
    · subst hk
      simp [List.lookup] at h
    · have hk' : (key == k) = false := by simpa using hk
      simp only [List.lookup, hk'] at h
      simpa [hk] using ih h

lemma lookup_some_mem {V : Type} (reg : List (Nat × TopicRec V)) (key : Nat)
    (tp : TopicRec V) (h : reg.lookup key = some tp) : key ∈ reg.map Prod.fst := by
  induction reg with
  | nil => simp [List.lookup] at h
  | cons p rest ih =>
    obtain ⟨k, v⟩ := p
    by_cases hk : key = k
    · simp [hk]
    · have hk' : (key == k) = false := by simpa using hk
      simp only [List.lookup, hk'] at h
      simpa [hk] using ih h

end DetectorGraph

/-- Claim C6: `Resolve<T>` is idempotent — resolving the same type key
twice against the same registry yields the same topic and leaves the
registry unchanged — and a registry with unique keys keeps unique keys,
holding exactly one topic for the resolved type. -/
theorem claim_C6 {V : Type} (reg : List (Nat × DetectorGraph.TopicRec V)) (key : Nat)
    (defaultV : V) (hnodup : (reg.map Prod.fst).Nodup) :
    DetectorGraph.resolve (DetectorGraph.resolve reg key defaultV).1 key defaultV
        = DetectorGraph.resolve reg key defaultV ∧
    ((DetectorGraph.resolve reg key defaultV).1.map Prod.fst).Nodup ∧
    ((DetectorGraph.resolve reg key defaultV).1.map Prod.fst).count key = 1 := by
  cases hl : reg.lookup key with
  | some tp =>
    have h1 : DetectorGraph.resolve reg key defaultV = (reg, tp) := by
      unfold DetectorGraph.resolve
      rw [hl]
    rw [h1]
    refine ⟨?_, hnodup, ?_⟩
    · show DetectorGraph.resolve reg key defaultV = (reg, tp)
      exact h1
    · exact List.count_eq_one_of_mem hnodup
        (DetectorGraph.lookup_some_mem reg key tp hl)
  | none =>
    have h1 : DetectorGraph.resolve reg key defaultV
        = (reg ++ [(key, ⟨defaultV, []⟩)], ⟨defaultV, []⟩) := by
      unfold DetectorGraph.resolve
      rw [hl]
    have hnot : key ∉ reg.map Prod.fst := DetectorGraph.lookup_none_not_mem reg key hl
    have hl2 : (reg ++ [(key, (⟨defaultV, []⟩ : DetectorGraph.TopicRec V))]).lookup key
        = some ⟨defaultV, []⟩ := DetectorGraph.lookup_append_of_none reg key _ hl
    rw [h1]
    refine ⟨?_, ?_, ?_⟩
    · unfold DetectorGraph.resolve
      rw [hl2]
    · simp only [List.map_append, List.map_cons, List.map_nil]
      refine List.Nodup.append hnodup (by simp) ?_
      intro a ha hb
      simp only [List.mem_singleton] at hb
      subst hb
      exact hnot ha
    · simp only [List.map_append, List.map_cons, List.map_nil]
      rw [List.count_append]
      rw [List.count_eq_zero_of_not_mem hnot]
      simp

/-- Claim C6, instantiated: a two-entry registry over `Nat` values. -/
theorem claim_C6_witness :
    DetectorGraph.resolve
        (DetectorGraph.resolve [(0, ⟨5, [6]⟩), (1, ⟨7, []⟩)] 2 0).1 2 0
      = DetectorGraph.resolve [(0, (⟨5, [6]⟩ : DetectorGraph.TopicRec Nat)), (1, ⟨7, []⟩)] 2 0 ∧
    ((DetectorGraph.resolve [(0, (⟨5, [6]⟩ : DetectorGraph.TopicRec Nat)), (1, ⟨7, []⟩)] 2 0).1.map
        Prod.fst).Nodup ∧
    ((DetectorGraph.resolve [(0, (⟨5, [6]⟩ : DetectorGraph.TopicRec Nat)), (1, ⟨7, []⟩)] 2 0).1.map
        Prod.fst).count 2 = 1 :=
  claim_C6 [(0, ⟨5, [6]⟩), (1, ⟨7, []⟩)] 2 0 (by decide)

namespace DetectorGraph

variable {V σ : Type}

/-- Filtering one per-value block by a subscriber that is registered once
leaves exactly that subscriber's delivery. -/
lemma filter_block_eq {V : Type} (v : V) (s : Nat) :
    ∀ subscribers : List Nat, subscribers.Nodup → s ∈ subscribers →
      ((subscribers.map (fun s' => (s', v))).filter (fun p => p.1 == s)) = [(s, v)] := by
  intro subscribers
  induction subscribers with
  | nil => intro _ h; simp at h
  | cons x xs ih =>
    intro hnodup hmem
    simp only [List.map_cons, List.filter_cons]
    by_cases hx : x = s
    · subst hx
      have hnot : x ∉ xs := (List.nodup_cons.mp hnodup).1
      have hall : (xs.map (fun s' => (s', v))).filter (fun p => p.1 == x) = [] := by
        apply List.filter_eq_nil_iff.mpr
        intro p hp
        obtain ⟨s', hs', rfl⟩ := List.mem_map.mp hp
        simp only [beq_iff_eq]
        intro hcon
        rw [hcon] at hs'
        exact hnot hs'
      simp [hall]
    · have hmem' : s ∈ xs := by
        rcases List.mem_cons.mp hmem with h | h
        · exact absurd h.symm hx
        · exact h
      have hx' : (x == s) = false := by simpa using hx
      simp only [hx', if_neg]
      simpa using ih (List.nodup_cons.mp hnodup).2 hmem'

end DetectorGraph

/-- Claim C4: for a topic whose `new_values` sequence is `[v1, ..., vn]` in
one traversal, `DispatchIntoSubscribers` delivers to every registered
subscriber exactly `Evaluate(v1), ..., Evaluate(vn)`, in publish order and
without deduplication; and the deliveries of each single value go to the
subscribers in registration order (the subscriber pattern of the whole
dispatch is the registration list repeated per value). -/
theorem claim_C4 {V : Type} (newValues : List V) (subscribers : List Nat)
    (hnodup : subscribers.Nodup) :
    (∀ s ∈ subscribers,
      ((DetectorGraph.dispatchIntoSubscribers newValues subscribers).filter
          (fun p => p.1 == s)).map Prod.snd = newValues) ∧
    (DetectorGraph.dispatchIntoSubscribers newValues subscribers).map Prod.fst
      = (newValues.map (fun _ => subscribers)).flatten := by
  constructor
  · intro s hs
    induction newValues with
    | nil => simp [DetectorGraph.dispatchIntoSubscribers]
    | cons v vs ih =>
      have hstep : DetectorGraph.dispatchIntoSubscribers (v :: vs) subscribers
          = (subscribers.map (fun s' => (s', v)))
            ++ DetectorGraph.dispatchIntoSubscribers vs subscribers := by
        simp [DetectorGraph.dispatchIntoSubscribers]
      rw [hstep, List.filter_append, List.map_append,
        DetectorGraph.filter_block_eq v s subscribers hnodup hs, ih]
      rfl
  · induction newValues with
    | nil => simp [DetectorGraph.dispatchIntoSubscribers]
    | cons v vs ih =>
      have hstep : DetectorGraph.dispatchIntoSubscribers (v :: vs) subscribers
          = (subscribers.map (fun s' => (s', v)))
            ++ DetectorGraph.dispatchIntoSubscribers vs subscribers := by
        simp [DetectorGraph.dispatchIntoSubscribers]
      rw [hstep, List.map_append, ih]
      simp only [List.map_cons, List.flatten_cons]
      congr 1
      have hid : (Prod.fst ∘ fun s' : Nat => (s', v)) = id := rfl
      rw [List.map_map, hid, List.map_id]

/-- Claim C4, instantiated: two values, two subscribers. -/
theorem claim_C4_witness :
    (∀ s ∈ [3, 7],
      ((DetectorGraph.dispatchIntoSubscribers [10, 20] [3, 7]).filter
          (fun p => p.1 == s)).map Prod.snd = [10, 20]) ∧
    (DetectorGraph.dispatchIntoSubscribers [10, 20] [3, 7]).map Prod.fst
      = ([10, 20].map (fun _ => [3, 7])).flatten :=
  claim_C4 [10, 20] [3, 7] (by decide)

namespace DetectorGraph

variable {V σ : Type}

lemma growsTo_refl (g : GraphState V σ) : GrowsTo g g :=
  fun _ => ⟨[], by simp⟩

lemma growsTo_trans {g1 g2 g3 : GraphState V σ} (h12 : GrowsTo g1 g2)
    (h23 : GrowsTo g2 g3) : GrowsTo g1 g3 := by
  intro tid
  obtain ⟨e1, h1⟩ := h12 tid
  obtain ⟨e2, h2⟩ := h23 tid
  exact ⟨e1 ++ e2, by rw [h2, h1, List.append_assoc]⟩

lemma publish_topics_length (g : GraphState V σ) (p : Nat × V) :
    (publish g p).topics.length = g.topics.length := by
  unfold publish
  cases g.topics[p.1]? <;> simp

lemma publish_rest (g : GraphState V σ) (p : Nat × V) :
    (publish g p).dets = g.dets ∧ (publish g p).order = g.order ∧
    (publish g p).futures = g.futures ∧ (publish g p).lagged = g.lagged := by
  unfold publish
  cases g.topics[p.1]? <;> exact ⟨rfl, rfl, rfl, rfl⟩

/-- What one `Publish` does to a topic's `new_values`: appends the value to
the published topic (when registered), leaves every other topic alone. -/
lemma publish_topicVals (g : GraphState V σ) (p : Nat × V) (tid : Nat) :
    topicVals (publish g p) tid
      = topicVals g tid ++
        (if tid = p.1 ∧ p.1 < g.topics.length then [p.2] else []) := by
  unfold publish
  cases h : g.topics[p.1]? with
  | none =>
    have hlen : ¬ p.1 < g.topics.length := by
      intro hlt
      rw [List.getElem?_eq_getElem hlt] at h
      exact Option.noConfusion h
    rw [if_neg (fun hc => hlen hc.2)]
    simp
  | some r =>
    have hlen : p.1 < g.topics.length := by
      by_contra hlt
      rw [List.getElem?_eq_none (by omega)] at h
      exact Option.noConfusion h
    by_cases ht : tid = p.1
    · subst ht
      rw [if_pos ⟨rfl, hlen⟩]
      unfold topicVals
      simp only
      rw [List.getElem?_set_eq_of_lt _ hlen, h]
      simp
    · rw [if_neg (fun hc => ht hc.1)]
      unfold topicVals
      simp only
      rw [List.getElem?_set_ne (fun he => ht he.symm)]
      simp

lemma publish_grows (g : GraphState V σ) (p : Nat × V) : GrowsTo g (publish g p) := by
  intro tid
  exact ⟨_, publish_topicVals g p tid⟩

lemma applyPubs_grows (ps : List (Nat × V)) :
    ∀ g : GraphState V σ, GrowsTo g (applyPubs g ps) := by
  induction ps with
  | nil => intro g; exact growsTo_refl g
  | cons p ps ih =>
    intro g
    exact growsTo_trans (publish_grows g p) (ih (publish g p))

lemma topicVals_addFutures (g : GraphState V σ) (fs : List (Nat × V)) (tid : Nat) :
    topicVals (addFutures g fs) tid = topicVals g tid := rfl

lemma evalStep_grows (d : DetRec V σ) (i tid : Nat)
    (acc : GraphState V σ × σ × List (Event V)) (v : V) :
    GrowsTo acc.1 (evalStep d i tid acc v).1 := by
  intro tid'
  show ∃ ext, topicVals (addFutures _ _) tid' = _
  rw [topicVals_addFutures]
  exact applyPubs_grows _ acc.1 tid'

lemma evalFold_grows (d : DetRec V σ) (i tid : Nat) :
    ∀ (vs : List V) (acc : GraphState V σ × σ × List (Event V)),
      GrowsTo acc.1 (vs.foldl (evalStep d i tid) acc).1 := by
  intro vs
  induction vs with
  | nil => intro acc; exact growsTo_refl _
  | cons v vs ih =>
    intro acc
    exact growsTo_trans (evalStep_grows d i tid acc v) (ih (evalStep d i tid acc v))

lemma topicStep_grows (d : DetRec V σ) (i : Nat)
    (acc : GraphState V σ × σ × List (Event V)) (tid : Nat) :
    GrowsTo acc.1 (topicStep d i acc tid).1 :=
  evalFold_grows d i tid (topicVals acc.1 tid) acc

lemma subsFold_grows (d : DetRec V σ) (i : Nat) :
    ∀ (subs : List Nat) (acc : GraphState V σ × σ × List (Event V)),
      GrowsTo acc.1 (subs.foldl (topicStep d i) acc).1 := by
  intro subs
  induction subs with
  | nil => intro acc; exact growsTo_refl _
  | cons tid subs ih =>
    intro acc
    exact growsTo_trans (topicStep_grows d i acc tid) (ih (topicStep d i acc tid))

/-- A detector visit can only append to `new_values` sequences. -/
lemma visitDet_grows (g : GraphState V σ) (i : Nat) : GrowsTo g (visitDet g i).1 := by
  unfold visitDet
  split
  · exact growsTo_refl g
  next d _ =>
    split
    · intro tid
      have h1 := subsFold_grows d i d.subs (g, d.state, [])
      have h2 := applyPubs_grows (d.complete (d.subs.foldl (topicStep d i) (g, d.state, [])).2.1).2.1
        (d.subs.foldl (topicStep d i) (g, d.state, [])).1
      exact (growsTo_trans h1 h2) tid
    · exact growsTo_refl g

/-- The traversal fold with a non-trivial accumulator, in terms of
`traverseList`. -/
lemma traverseList_acc (l : List Nat) :
    ∀ (g : GraphState V σ) (evs0 : List (Event V)),
      l.foldl (fun acc i =>
          let r := visitDet acc.1 i
          (r.1, acc.2 ++ r.2)) (g, evs0)
        = ((traverseList g l).1, evs0 ++ (traverseList g l).2) := by
  induction l with
  | nil => intro g evs0; simp [traverseList]
  | cons i l ih =>
    intro g evs0
    simp only [List.foldl_cons]
    show l.foldl _ ((visitDet g i).1, evs0 ++ (visitDet g i).2) = _
    rw [ih]
    have hr : traverseList g (i :: l)
        = ((traverseList (visitDet g i).1 l).1,
           (visitDet g i).2 ++ (traverseList (visitDet g i).1 l).2) := by
      show (l.foldl _ ((visitDet g i).1, [] ++ (visitDet g i).2)) = _
      rw [List.nil_append, ih]
    rw [hr]
    simp [List.append_assoc]

lemma traverseList_cons (g : GraphState V σ) (i : Nat) (l : List Nat) :
    traverseList g (i :: l)
      = ((traverseList (visitDet g i).1 l).1,
         (visitDet g i).2 ++ (traverseList (visitDet g i).1 l).2) := by
  show (l.foldl _ ((visitDet g i).1, [] ++ (visitDet g i).2)) = _
  rw [List.nil_append, traverseList_acc]

lemma traverseList_append (g : GraphState V σ) (p q : List Nat) :
    traverseList g (p ++ q)
      = ((traverseList (traverseList g p).1 q).1,
         (traverseList g p).2 ++ (traverseList (traverseList g p).1 q).2) := by
  induction p generalizing g with
  | nil => simp [traverseList]
  | cons i p ih =>
    rw [List.cons_append, traverseList_cons, traverseList_cons, ih]
    simp [List.append_assoc]

lemma traverseList_grows (l : List Nat) :
    ∀ g : GraphState V σ, GrowsTo g (traverseList g l).1 := by
  induction l with
  | nil => intro g; exact growsTo_refl g
  | cons i l ih =>
    intro g
    rw [traverseList_cons]
    exact growsTo_trans (visitDet_grows g i) (ih (visitDet g i).1)

/-- What consolidation does to one registered topic. -/
lemma consolidate_spec (g : GraphState V σ) (tid : Nat) (r0 : TopicRec V)
    (h : g.topics[tid]? = some r0) :
    ∃ r, (consolidate g).topics[tid]? = some r ∧ hasNewValue r = false ∧
      (r0.newValues = [] → r = r0) ∧
      (∀ v, r0.newValues.getLast? = some v → r = ⟨v, []⟩) := by
  unfold consolidate
  simp only [List.getElem?_map, h, Option.map_some']
  cases hl : r0.newValues.getLast? with
  | none =>
    have hnil : r0.newValues = [] := List.getLast?_eq_none_iff.mp hl
    refine ⟨r0, rfl, ?_, fun _ => rfl, ?_⟩
    · simp [hasNewValue, hnil]
    · intro v hv
      exact Option.noConfusion hv
  | some v =>
    refine ⟨⟨v, []⟩, rfl, by simp [hasNewValue], ?_, ?_⟩
    · intro hnil
      rw [hnil] at hl
      simp at hl
    · intro v' hv'
      injection hv' with hv'
      rw [hv']

/-- Draining through `HasNewValue`/`GetNewValue` reads exactly the last
pending value. -/
lemma drain_eq {V : Type} (r : TopicRec V) :
    (if hasNewValue r then getNewValue r else none) = r.newValues.getLast? := by
  by_cases h : hasNewValue r = true
  · rw [if_pos h]; rfl
  · rw [if_neg h]
    have hnil : r.newValues = [] := by
      unfold hasNewValue at h
      simpa using h
    rw [hnil]
    rfl

end DetectorGraph

open DetectorGraph in
/-- Claim C5: within one traversal every topic's `new_values` sequence only
grows (every later point of the traversal walk extends every earlier one);
at the end of `ProcessData` every topic is consolidated — if `new_values`
was non-empty its last element becomes `current`, the sequence is cleared,
and `HasNewValue()` is false for every topic (nothing has been seeded for
the next call yet); and the example's `ProcessOutput` hook, draining the
output topics through `HasNewValue()`/`GetNewValue()`, reads exactly each
topic's last new value. -/
theorem claim_C5 {V σ : Type} (g : GraphState V σ) (t0 : Nat) (v0 : V) :
    (∀ (gs : GraphState V σ) (p q : List Nat),
      GrowsTo (traverseList gs p).1 (traverseList gs (p ++ q)).1) ∧
    (∀ (tid : Nat) (r0 : TopicRec V),
      (traverseList (seedPhase g [(t0, v0)])
          (seedPhase g [(t0, v0)]).order).1.topics[tid]? = some r0 →
      ∃ r, (processData g t0 v0).1.topics[tid]? = some r ∧
        hasNewValue r = false ∧
        (r0.newValues = [] → r = r0) ∧
        (∀ v, r0.newValues.getLast? = some v → r = ⟨v, []⟩)) ∧
    (∀ a b c : TopicRec V,
      processOutputDrain a b c
        = (a.newValues.getLast?, b.newValues.getLast?, c.newValues.getLast?)) := by
  refine ⟨?_, ?_, ?_⟩
  · intro gs p q
    rw [traverseList_append]
    exact traverseList_grows q (traverseList gs p).1
  · intro tid r0 h
    exact consolidate_spec _ tid r0 h
  · intro a b c
    unfold processOutputDrain
    rw [drain_eq, drain_eq, drain_eq]

open DetectorGraph in
/-- Claim C5, instantiated at a one-topic graph over `Nat` (detector state
`Option Nat`). -/
theorem claim_C5_witness :
    (∀ (gs : GraphState Nat (Option Nat)) (p q : List Nat),
      GrowsTo (traverseList gs p).1 (traverseList gs (p ++ q)).1) ∧
    (∀ (tid : Nat) (r0 : TopicRec Nat),
      (traverseList (seedPhase
            (⟨[⟨0, []⟩], [], [], [], fun _ => false⟩ : GraphState Nat (Option Nat))
            [(0, 7)])
          (seedPhase (⟨[⟨0, []⟩], [], [], [], fun _ => false⟩ : GraphState Nat (Option Nat))
            [(0, 7)]).order).1.topics[tid]? = some r0 →
      ∃ r, (processData
          (⟨[⟨0, []⟩], [], [], [], fun _ => false⟩ : GraphState Nat (Option Nat))
          0 7).1.topics[tid]? = some r ∧
        hasNewValue r = false ∧
        (r0.newValues = [] → r = r0) ∧
        (∀ v, r0.newValues.getLast? = some v → r = ⟨v, []⟩)) ∧
    (∀ a b c : TopicRec Nat,
      processOutputDrain a b c
        = (a.newValues.getLast?, b.newValues.getLast?, c.newValues.getLast?)) :=
  claim_C5 (⟨[⟨0, []⟩], [], [], [], fun _ => false⟩ : GraphState Nat (Option Nat)) 0 7

namespace DetectorGraph

variable {V σ : Type}

lemma getElem?_some_lt {α : Type} {l : List α} {i : Nat} {x : α}
    (h : l[i]? = some x) : i < l.length := by
  by_contra hc
  rw [List.getElem?_eq_none (by omega)] at h
  exact Option.noConfusion h

/-- An edge only relates registered detectors. -/
lemma hasEdge_lt {g : GraphState V σ} {a b : Nat} (h : hasEdge g a b = true) :
    a < g.dets.length ∧ b < g.dets.length := by
  unfold hasEdge at h
  cases ha : g.dets[a]? with
  | none => rw [ha] at h; simp at h
  | some da =>
    cases hb : g.dets[b]? with
    | none => rw [ha, hb] at h; simp at h
    | some db => exact ⟨getElem?_some_lt ha, getElem?_some_lt hb⟩

/-- `find?` on a strictly sorted list returns the least satisfying
element. -/
lemma find?_sorted_min {p : Nat → Bool} :
    ∀ {l : List Nat}, l.Sorted (· < ·) → ∀ {b : Nat}, l.find? p = some b →
      ∀ x ∈ l, p x = true → b ≤ x := by
  intro l
  induction l with
  | nil => intro _ b h; simp at h
  | cons y ys ih =>
    intro hsort b hfind x hx hpx
    by_cases hp : p y = true
    · rw [List.find?_cons_of_pos _ hp] at hfind
      injection hfind with hfind
      subst hfind
      rcases List.mem_cons.mp hx with h | h
      · omega
      · exact le_of_lt ((List.sorted_cons.mp hsort).1 x h)
    · rw [List.find?_cons_of_neg _ (by simpa using hp)] at hfind
      rcases List.mem_cons.mp hx with h | h
      · subst h
        exact absurd hpx hp
      · exact ih (List.sorted_cons.mp hsort).2 hfind x h hpx

/-- A duplicate-free list of naturals below `n` of length `n` contains
every natural below `n`. -/
lemma mem_of_nodup_length {l : List Nat} {n : Nat} (hnd : l.Nodup)
    (hlt : ∀ x ∈ l, x < n) (hlen : l.length = n) : ∀ x, x < n → x ∈ l := by
  intro x hx
  by_contra hmem
  have hcard : l.toFinset.card = n := by
    rw [List.toFinset_card_of_nodup hnd, hlen]
  have hsub : l.toFinset ⊆ (Finset.range n).erase x := by
    intro y hy
    rw [List.mem_toFinset] at hy
    refine Finset.mem_erase.mpr ⟨?_, Finset.mem_range.mpr (hlt y hy)⟩
    intro he
    subst he
    exact hmem hy
  have hle := Finset.card_le_card hsub
  rw [hcard, Finset.card_erase_of_mem (Finset.mem_range.mpr hx), Finset.card_range] at hle
  omega

/-- Soundness of the ordering loop: from a valid partial emission, a
successful run returns a duplicate-free total order extending it in which
every newly emitted detector has all its non-lagged predecessors emitted
strictly earlier and is the registration-least among the then-eligible
not-yet-emitted detectors (the tie-break rule). -/
lemma topoAux_sound (g : GraphState V σ) :
    ∀ (fuel : Nat) (emitted out : List Nat),
      emitted.Nodup → (∀ x ∈ emitted, x < g.dets.length) →
      topoAux g fuel emitted = some out →
      (emitted <+: out) ∧ out.Nodup ∧
      (∀ x, x ∈ out ↔ x < g.dets.length) ∧
      (∀ k, emitted.length ≤ k → ∀ y, out[k]? = some y →
        (∀ a, hasEdge g a y = true → a ∈ out.take k) ∧
        (∀ b, b < g.dets.length → b ∉ out.take k →
          eligible g (out.take k) b = true → y ≤ b)) := by
  intro fuel
  induction fuel with
  | zero =>
    intro emitted out hnd hlt h
    simp only [topoAux] at h
    split at h
    case isTrue hlen =>
      injection h with h
      subst h
      refine ⟨⟨[], by simp⟩, hnd, ?_, ?_⟩
      · intro x
        exact ⟨fun hx => hlt x hx, fun hx => mem_of_nodup_length hnd hlt hlen x hx⟩
      · intro k hk y hy
        rw [List.getElem?_eq_none (by omega)] at hy
        exact Option.noConfusion hy
    case isFalse => exact Option.noConfusion h
  | succ fuel ih =>
    intro emitted out hnd hlt h
    simp only [topoAux] at h
    cases hstep : topoStep g emitted with
    | none =>
      simp only [hstep] at h
      split at h
      next hlen =>
        injection h with h
        subst h
        refine ⟨⟨[], by simp⟩, hnd, ?_, ?_⟩
        · intro x
          exact ⟨fun hx => hlt x hx, fun hx => mem_of_nodup_length hnd hlt hlen x hx⟩
        · intro k hk y hy
          rw [List.getElem?_eq_none (by omega)] at hy
          exact Option.noConfusion hy
      next => exact Option.noConfusion h
    | some b =>
      simp only [hstep] at h
      have hfind := hstep
      unfold topoStep at hfind
      have hpb : eligible g emitted b = true := List.find?_some hfind
      have hmemb := List.mem_of_find?_eq_some hfind
      rw [List.mem_filter, List.mem_range] at hmemb
      obtain ⟨hblt, hbnot⟩ := hmemb
      have hbnotmem : b ∉ emitted := by simpa using hbnot
      have hnd' : (emitted ++ [b]).Nodup := by
        rw [List.nodup_append]
        refine ⟨hnd, by simp, ?_⟩
        intro a ha hab
        rw [List.mem_singleton] at hab
        subst hab
        exact hbnotmem ha
      have hlt' : ∀ x ∈ emitted ++ [b], x < g.dets.length := by
        intro x hx
        rcases List.mem_append.mp hx with hx | hx
        · exact hlt x hx
        · rw [List.mem_singleton] at hx
          subst hx
          exact hblt
      obtain ⟨hpre, hndout, hmem, hstepprop⟩ := ih (emitted ++ [b]) out hnd' hlt' h
      obtain ⟨t, ht⟩ := hpre
      have hout : out = emitted ++ ([b] ++ t) := by
        rw [← ht, List.append_assoc]
      have htake : out.take emitted.length = emitted := by
        rw [hout, List.take_left]
      have hposb : out[emitted.length]? = some b := by
        rw [hout, List.getElem?_append_right (le_refl _)]
        simp
      refine ⟨?_, hndout, hmem, ?_⟩
      · exact ⟨[b] ++ t, hout.symm⟩
      · intro k hk y hy
        by_cases hkeq : k = emitted.length
        · subst hkeq
          rw [hposb] at hy
          injection hy with hy
          subst hy
          rw [htake]
          constructor
          · intro a hedge
            have halt := (hasEdge_lt hedge).1
            unfold eligible at hpb
            rw [List.all_eq_true] at hpb
            have hor := hpb a (List.mem_range.mpr halt)
            rw [Bool.or_eq_true] at hor
            rcases hor with hno | hcont
            · rw [hedge] at hno
              simp at hno
            · exact List.elem_iff.mp hcont
          · intro b' hblt' hbnot' helig'
            refine find?_sorted_min ?_ hfind b' ?_ helig'
            · exact List.Sorted.filter _ (List.sorted_lt_range _)
            · rw [List.mem_filter, List.mem_range]
              exact ⟨hblt', by simpa using hbnot'⟩
        · have hk' : (emitted ++ [b]).length ≤ k := by
            rw [List.length_append, List.length_singleton]
            omega
          exact hstepprop k hk' y hy

end DetectorGraph

open DetectorGraph in
/-- Claim C2: a successfully computed evaluation order is a duplicate-free
total arrangement of all registered detectors (and being a function of the
graph, it is deterministic); for every edge A→B of the non-lagged DAG —
A publishes a non-lagged topic B subscribes to — A is visited strictly
before B; and each position of the order holds the registration-least
detector among the not-yet-visited ones whose predecessors are all
already visited (ties broken by registration order). -/
theorem claim_C2 {V σ : Type} (g : GraphState V σ) (order : List Nat)
    (h : evalOrder g = some order) :
    order.Nodup ∧ (∀ i, i ∈ order ↔ i < g.dets.length) ∧
    (∀ a b, hasEdge g a b = true →
      ∃ ka kb : Nat, ka < kb ∧ order[ka]? = some a ∧ order[kb]? = some b) ∧
    (∀ k b, b < g.dets.length → b ∉ order.take k →
      eligible g (order.take k) b = true →
      ∀ y, order[k]? = some y → y ≤ b) := by
  obtain ⟨_, hnd, hmem, hstep⟩ :=
    topoAux_sound g g.dets.length [] order (by simp) (by simp) h
  refine ⟨hnd, hmem, ?_, ?_⟩
  · intro a b hedge
    obtain ⟨_, hblt⟩ := hasEdge_lt hedge
    have hbmem : b ∈ order := (hmem b).mpr hblt
    obtain ⟨kb, hkb, hget⟩ := List.getElem_of_mem hbmem
    have hgetq : order[kb]? = some b := by
      rw [List.getElem?_eq_getElem hkb, hget]
    obtain ⟨hcl, _⟩ := hstep kb (by simp) b hgetq
    have hamem : a ∈ order.take kb := hcl a hedge
    obtain ⟨ka, hka, hgeta⟩ := List.getElem_of_mem hamem
    have hkalt : ka < kb := by
      have h1 : (order.take kb).length ≤ kb := by
        rw [List.length_take]
        exact min_le_left _ _
      omega
    have hkalen : ka < order.length := by
      have h1 : (order.take kb).length ≤ order.length := by
        rw [List.length_take]
        exact min_le_right _ _
      omega
    refine ⟨ka, kb, hkalt, ?_, hgetq⟩
    rw [List.getElem?_eq_getElem hkalen]
    rw [List.getElem_take] at hgeta
    rw [hgeta]
  · intro k b hblt hbnot helig y hy
    exact (hstep k (by simp) y hy).2 b hblt hbnot helig

open DetectorGraph in
/-- Claim C2, instantiated at the two-detector S1 graph: its computed
order is `[0, 1]`. -/
theorem claim_C2_witness :
    ([0, 1] : List Nat).Nodup ∧
    (∀ i, i ∈ ([0, 1] : List Nat) ↔ i < sampleGraph.dets.length) ∧
    (∀ a b, hasEdge sampleGraph a b = true →
      ∃ ka kb : Nat, ka < kb ∧ ([0, 1] : List Nat)[ka]? = some a ∧
        ([0, 1] : List Nat)[kb]? = some b) ∧
    (∀ k b, b < sampleGraph.dets.length → b ∉ ([0, 1] : List Nat).take k →
      eligible sampleGraph (([0, 1] : List Nat).take k) b = true →
      ∀ y, ([0, 1] : List Nat)[k]? = some y → y ≤ b) :=
  claim_C2 sampleGraph [0, 1] rfl

namespace DetectorGraph

variable {V σ : Type}

/-- The per-topic dispatch fold appends only `Evaluate` events of the
visited detector to the trace. -/
lemma evalFold_events (d : DetRec V σ) (i tid : Nat) :
    ∀ (vs : List V) (acc : GraphState V σ × σ × List (Event V)),
      ∃ ext, (vs.foldl (evalStep d i tid) acc).2.2 = acc.2.2 ++ ext ∧
        ∀ e ∈ ext, ∃ tid' v, e = Event.eval i tid' v := by
  intro vs
  induction vs with
  | nil => intro acc; exact ⟨[], by simp, by simp⟩
  | cons v vs ih =>
    intro acc
    obtain ⟨ext, hext, hall⟩ := ih (evalStep d i tid acc v)
    refine ⟨Event.eval i tid v :: ext, ?_, ?_⟩
    · rw [List.foldl_cons, hext]
      show acc.2.2 ++ [Event.eval i tid v] ++ ext = _
      simp [List.append_assoc]
    · intro e he
      rcases List.mem_cons.mp he with he | he
      · exact ⟨tid, v, he⟩
      · exact hall e he

/-- The subscription fold appends only `Evaluate` events of the visited
detector to the trace. -/
lemma subsFold_events (d : DetRec V σ) (i : Nat) :
    ∀ (subs : List Nat) (acc : GraphState V σ × σ × List (Event V)),
      ∃ ext, (subs.foldl (topicStep d i) acc).2.2 = acc.2.2 ++ ext ∧
        ∀ e ∈ ext, ∃ tid v, e = Event.eval i tid v := by
  intro subs
  induction subs with
  | nil => intro acc; exact ⟨[], by simp, by simp⟩
  | cons tid subs ih =>
    intro acc
    obtain ⟨e1, h1, ha1⟩ := evalFold_events d i tid (topicVals acc.1 tid) acc
    obtain ⟨e2, h2, ha2⟩ := ih (topicStep d i acc tid)
    refine ⟨e1 ++ e2, ?_, ?_⟩
    · rw [List.foldl_cons, h2]
      show (topicStep d i acc tid).2.2 ++ e2 = _
      unfold topicStep
      rw [h1, List.append_assoc]
    · intro e he
      rcases List.mem_append.mp he with he | he
      · exact ha1 e he
      · exact ha2 e he

/-- A skipped visit (missing detector or no dirty input) emits no events. -/
lemma visitDet_trace_clean (g : GraphState V σ) (i : Nat)
    (h : ∀ d, g.dets[i]? = some d → anyDirty g d = false) :
    (visitDet g i).2 = [] := by
  unfold visitDet
  split
  · rfl
  next d hd =>
    split
    next hdirty =>
      rw [h d hd] at hdirty
      exact absurd hdirty (by simp)
    next => rfl

/-- A visit with a dirty input emits its `Evaluate` events followed by a
single `CompleteEvaluation` event. -/
lemma visitDet_trace_dirty (g : GraphState V σ) (i : Nat) (d : DetRec V σ)
    (hd : g.dets[i]? = some d) (hdirty : anyDirty g d = true) :
    ∃ evals, (visitDet g i).2 = evals ++ [Event.comp i] ∧
      ∀ e ∈ evals, ∃ tid v, e = Event.eval i tid v := by
  unfold visitDet
  rw [hd]
  simp only [hdirty, if_true]
  obtain ⟨ext, hext, hall⟩ := subsFold_events d i d.subs (g, d.state, [])
  refine ⟨ext, ?_, hall⟩
  show (d.subs.foldl (topicStep d i) (g, d.state, [])).2.2 ++ [Event.comp i] = _
  rw [hext]
  simp

/-- Every event of a visit is tagged with the visited detector. -/
lemma visitDet_events_tagged (g : GraphState V σ) (i : Nat) :
    ∀ e ∈ (visitDet g i).2, (∃ tid v, e = Event.eval i tid v) ∨ e = Event.comp i := by
  intro e he
  by_cases hclean : ∀ d, g.dets[i]? = some d → anyDirty g d = false
  · rw [visitDet_trace_clean g i hclean] at he
    simp at he
  · push_neg at hclean
    obtain ⟨d, hd, hdirty⟩ := hclean
    have hdirty' : anyDirty g d = true := by
      cases hv : anyDirty g d
      · exact absurd hv hdirty
      · rfl
    obtain ⟨evals, hseg, hall⟩ := visitDet_trace_dirty g i d hd hdirty'
    rw [hseg] at he
    rcases List.mem_append.mp he with he | he
    · exact Or.inl (hall e he)
    · rw [List.mem_singleton] at he
      exact Or.inr he

/-- Every event of a traversal over `l` is tagged with some detector of
`l`. -/
lemma traverseList_events (l : List Nat) :
    ∀ (g : GraphState V σ), ∀ e ∈ (traverseList g l).2,
      ∃ j ∈ l, ((∃ tid v, e = Event.eval j tid v) ∨ e = Event.comp j) := by
  induction l with
  | nil => intro g e he; simp [traverseList] at he
  | cons i l ih =>
    intro g e he
    rw [traverseList_cons] at he
    rcases List.mem_append.mp he with he | he
    · exact ⟨i, by simp, visitDet_events_tagged g i e he⟩
    · obtain ⟨j, hj, htag⟩ := ih (visitDet g i).1 e he
      exact ⟨j, by simp [hj], htag⟩

end DetectorGraph

open DetectorGraph in
/-- Claim C3: in one `ProcessData` call, a detector's events form one
contiguous segment of the traversal trace (no event of that detector
occurs elsewhere); when some subscribed topic is dirty as the walker
reaches it, the segment is its `Evaluate` events followed by a single
`CompleteEvaluation`, and when none is, the segment is empty (so
`CompleteEvaluation` happens iff an input was dirty, after all per-topic
`Evaluate` calls); in total at most one `CompleteEvaluation` per
detector per call. -/
theorem claim_C3 {V σ : Type} [DecidableEq V] (g : GraphState V σ) (t0 : Nat) (v0 : V)
    (i : Nat) (before after : List Nat)
    (horder : (seedPhase g [(t0, v0)]).order = before ++ i :: after)
    (hnotb : i ∉ before) (hnota : i ∉ after) :
    ∃ evsB seg evsA : List (Event V),
      (processData g t0 v0).2 = evsB ++ seg ++ evsA ∧
      (∀ e ∈ evsB ++ evsA, (∀ tid v, e ≠ Event.eval i tid v) ∧ e ≠ Event.comp i) ∧
      (∀ d, (traverseList (seedPhase g [(t0, v0)]) before).1.dets[i]? = some d →
        anyDirty (traverseList (seedPhase g [(t0, v0)]) before).1 d = true →
        ∃ evals, seg = evals ++ [Event.comp i] ∧
          ∀ e ∈ evals, ∃ tid v, e = Event.eval i tid v) ∧
      ((∀ d, (traverseList (seedPhase g [(t0, v0)]) before).1.dets[i]? = some d →
        anyDirty (traverseList (seedPhase g [(t0, v0)]) before).1 d = false) →
        seg = []) ∧
      (processData g t0 v0).2.countP (fun e => e == Event.comp i) ≤ 1 := by
  have hmain : (processData g t0 v0).2
      = (traverseList (seedPhase g [(t0, v0)]) before).2
        ++ ((visitDet (traverseList (seedPhase g [(t0, v0)]) before).1 i).2
        ++ (traverseList
            (visitDet (traverseList (seedPhase g [(t0, v0)]) before).1 i).1 after).2) := by
    have h0 : (processData g t0 v0).2
        = (traverseList (seedPhase g [(t0, v0)]) (before ++ i :: after)).2 := by
      show (traverseList (seedPhase g [(t0, v0)])
        ((seedPhase g [(t0, v0)]).order)).2 = _
      rw [horder]
    rw [h0, traverseList_append, traverseList_cons]
  have htagged : ∀ e, ((∃ tid v, e = Event.eval i tid v) ∨ e = Event.comp i) →
      (e ∈ (traverseList (seedPhase g [(t0, v0)]) before).2 → False) ∧
      (e ∈ (traverseList
          (visitDet (traverseList (seedPhase g [(t0, v0)]) before).1 i).1 after).2 →
        False) := by
    intro e htag
    constructor
    · intro he
      obtain ⟨j, hj, hjtag⟩ := traverseList_events before _ e he
      have hij : j ≠ i := fun hcon => hnotb (hcon ▸ hj)
      rcases hjtag with ⟨tid', v', rfl⟩ | rfl
      · rcases htag with ⟨tid, v, hcon⟩ | hcon
        · injection hcon with h1 _ _
          exact hij h1
        · exact Event.noConfusion hcon
      · rcases htag with ⟨tid, v, hcon⟩ | hcon
        · exact Event.noConfusion hcon
        · injection hcon with h1
          exact hij h1
    · intro he
      obtain ⟨j, hj, hjtag⟩ := traverseList_events after _ e he
      have hij : j ≠ i := fun hcon => hnota (hcon ▸ hj)
      rcases hjtag with ⟨tid', v', rfl⟩ | rfl
      · rcases htag with ⟨tid, v, hcon⟩ | hcon
        · injection hcon with h1 _ _
          exact hij h1
        · exact Event.noConfusion hcon
      · rcases htag with ⟨tid, v, hcon⟩ | hcon
        · exact Event.noConfusion hcon
        · injection hcon with h1
          exact hij h1
  refine ⟨(traverseList (seedPhase g [(t0, v0)]) before).2,
          (visitDet (traverseList (seedPhase g [(t0, v0)]) before).1 i).2,
          (traverseList
            (visitDet (traverseList (seedPhase g [(t0, v0)]) before).1 i).1 after).2,
          by rw [hmain, List.append_assoc], ?_, ?_, ?_, ?_⟩
  · intro e he
    rcases List.mem_append.mp he with he | he
    · constructor
      · intro tid v hcon
        exact ((htagged e (Or.inl ⟨tid, v, hcon⟩)).1) he
      · intro hcon
        exact ((htagged e (Or.inr hcon)).1) he
    · constructor
      · intro tid v hcon
        exact ((htagged e (Or.inl ⟨tid, v, hcon⟩)).2) he
      · intro hcon
        exact ((htagged e (Or.inr hcon)).2) he
  · intro d hd hdirty
    exact visitDet_trace_dirty _ i d hd hdirty
  · intro h
    exact visitDet_trace_clean _ i h
  · rw [hmain, List.countP_append, List.countP_append]
    have hB : (traverseList (seedPhase g [(t0, v0)]) before).2.countP
        (fun e => e == Event.comp i) = 0 := by
      rw [List.countP_eq_zero]
      intro e he
      simp only [beq_iff_eq]
      intro hcon
      subst hcon
      exact (htagged _ (Or.inr rfl)).1 he
    have hA : (traverseList
        (visitDet (traverseList (seedPhase g [(t0, v0)]) before).1 i).1 after).2.countP
        (fun e => e == Event.comp i) = 0 := by
      rw [List.countP_eq_zero]
      intro e he
      simp only [beq_iff_eq]
      intro hcon
      subst hcon
      exact (htagged _ (Or.inr rfl)).2 he
    have hS : (visitDet (traverseList (seedPhase g [(t0, v0)]) before).1 i).2.countP
        (fun e => e == Event.comp i) ≤ 1 := by
      by_cases hclean : ∀ d,
          (traverseList (seedPhase g [(t0, v0)]) before).1.dets[i]? = some d →
          anyDirty (traverseList (seedPhase g [(t0, v0)]) before).1 d = false
      · rw [visitDet_trace_clean _ i hclean]
        simp
      · push_neg at hclean
        obtain ⟨d, hd, hdirty⟩ := hclean
        have hdirty' : anyDirty (traverseList (seedPhase g [(t0, v0)]) before).1 d = true := by
          cases hv : anyDirty (traverseList (seedPhase g [(t0, v0)]) before).1 d
          · exact absurd hv hdirty
          · rfl
        obtain ⟨evals, hseg, hall⟩ := visitDet_trace_dirty _ i d hd hdirty'
        rw [hseg, List.countP_append]
        have h0 : evals.countP (fun e => e == Event.comp i) = 0 := by
          rw [List.countP_eq_zero]
          intro e he
          obtain ⟨tid, v, rfl⟩ := hall e he
          simp
        rw [h0]
        simp [List.countP_cons]
    omega

open DetectorGraph in
/-- Claim C3, instantiated at the two-detector S1 graph, seeding topic 0
and looking at detector 0 (first in the order). -/
theorem claim_C3_witness :
    ∃ evsB seg evsA : List (Event Nat),
      (processData sampleGraph 0 1).2 = evsB ++ seg ++ evsA ∧
      (∀ e ∈ evsB ++ evsA, (∀ tid v, e ≠ Event.eval 0 tid v) ∧ e ≠ Event.comp 0) ∧
      (∀ d, (traverseList (seedPhase sampleGraph [(0, 1)]) []).1.dets[0]? = some d →
        anyDirty (traverseList (seedPhase sampleGraph [(0, 1)]) []).1 d = true →
        ∃ evals, seg = evals ++ [Event.comp 0] ∧
          ∀ e ∈ evals, ∃ tid v, e = Event.eval 0 tid v) ∧
      ((∀ d, (traverseList (seedPhase sampleGraph [(0, 1)]) []).1.dets[0]? = some d →
        anyDirty (traverseList (seedPhase sampleGraph [(0, 1)]) []).1 d = false) →
        seg = []) ∧
      (processData sampleGraph 0 1).2.countP (fun e => e == Event.comp 0) ≤ 1 :=
  claim_C3 sampleGraph 0 1 0 [] [1] rfl (by decide) (by decide)

namespace DetectorGraph

variable {V σ : Type}

lemma shapeEq_refl (o : Option (DetRec V σ)) : ShapeEq o o := by
  cases o with
  | none => trivial
  | some d => exact ⟨rfl, rfl, rfl, rfl⟩

lemma shapeEq_trans {o1 o2 o3 : Option (DetRec V σ)} (h12 : ShapeEq o1 o2)
    (h23 : ShapeEq o2 o3) : ShapeEq o1 o3 := by
  cases o1 with
  | none =>
    cases o2 with
    | none => exact h23
    | some d2 => exact absurd h12 (by simp [ShapeEq])
  | some d1 =>
    cases o2 with
    | none => exact absurd h12 (by simp [ShapeEq])
    | some d2 =>
      cases o3 with
      | none => exact absurd h23 (by simp [ShapeEq])
      | some d3 =>
        obtain ⟨h1, h2, h3, h4⟩ := h12
        obtain ⟨g1, g2, g3, g4⟩ := h23
        exact ⟨h1.trans g1, h2.trans g2, h3.trans g3, h4.trans g4⟩

lemma declOK_of_shapeEq {d1 d2 : DetRec V σ} (h : ShapeEq (some d1) (some d2))
    (hok : DeclOK d1) : DeclOK d2 := by
  obtain ⟨hs, hp, he, hc⟩ := h
  obtain ⟨hev, hco⟩ := hok
  constructor
  · intro tid v s
    rw [← he, ← hp]
    exact hev tid v s
  · intro s
    rw [← hc, ← hp]
    exact hco s

lemma applyPubs_frame (ps : List (Nat × V)) :
    ∀ g : GraphState V σ,
      (applyPubs g ps).dets = g.dets ∧ (applyPubs g ps).order = g.order ∧
      (applyPubs g ps).lagged = g.lagged ∧
      (applyPubs g ps).topics.length = g.topics.length ∧
      (applyPubs g ps).futures = g.futures := by
  induction ps with
  | nil => intro g; exact ⟨rfl, rfl, rfl, rfl, rfl⟩
  | cons p ps ih =>
    intro g
    obtain ⟨h1, h2, h3, h4⟩ := publish_rest g p
    obtain ⟨i1, i2, i3, i4, i5⟩ := ih (publish g p)
    refine ⟨i1.trans h1, i2.trans h2, i3.trans h4, ?_, i5.trans h3⟩
    show (applyPubs (publish g p) ps).topics.length = g.topics.length
    rw [i4, publish_topics_length]

lemma evalStep_frame (d : DetRec V σ) (i tid : Nat)
    (acc : GraphState V σ × σ × List (Event V)) (v : V) :
    (evalStep d i tid acc v).1.dets = acc.1.dets ∧
    (evalStep d i tid acc v).1.order = acc.1.order ∧
    (evalStep d i tid acc v).1.lagged = acc.1.lagged ∧
    (evalStep d i tid acc v).1.topics.length = acc.1.topics.length := by
  obtain ⟨h1, h2, h3, h4, _⟩ := applyPubs_frame (d.evaluate tid v acc.2.1).2.1 acc.1
  exact ⟨h1, h2, h3, h4⟩

lemma evalFold_frame (d : DetRec V σ) (i tid : Nat) :
    ∀ (vs : List V) (acc : GraphState V σ × σ × List (Event V)),
      (vs.foldl (evalStep d i tid) acc).1.dets = acc.1.dets ∧
      (vs.foldl (evalStep d i tid) acc).1.order = acc.1.order ∧
      (vs.foldl (evalStep d i tid) acc).1.lagged = acc.1.lagged ∧
      (vs.foldl (evalStep d i tid) acc).1.topics.length = acc.1.topics.length := by
  intro vs
  induction vs with
  | nil => intro acc; exact ⟨rfl, rfl, rfl, rfl⟩
  | cons v vs ih =>
    intro acc
    obtain ⟨h1, h2, h3, h4⟩ := evalStep_frame d i tid acc v
    obtain ⟨i1, i2, i3, i4⟩ := ih (evalStep d i tid acc v)
    exact ⟨i1.trans h1, i2.trans h2, i3.trans h3, i4.trans h4⟩

lemma subsFold_frame (d : DetRec V σ) (i : Nat) :
    ∀ (subs : List Nat) (acc : GraphState V σ × σ × List (Event V)),
      (subs.foldl (topicStep d i) acc).1.dets = acc.1.dets ∧
      (subs.foldl (topicStep d i) acc).1.order = acc.1.order ∧
      (subs.foldl (topicStep d i) acc).1.lagged = acc.1.lagged ∧
      (subs.foldl (topicStep d i) acc).1.topics.length = acc.1.topics.length := by
  intro subs
  induction subs with
  | nil => intro acc; exact ⟨rfl, rfl, rfl, rfl⟩
  | cons tid subs ih =>
    intro acc
    obtain ⟨h1, h2, h3, h4⟩ := evalFold_frame d i tid (topicVals acc.1 tid) acc
    obtain ⟨i1, i2, i3, i4⟩ := ih (topicStep d i acc tid)
    exact ⟨i1.trans h1, i2.trans h2, i3.trans h3, i4.trans h4⟩

lemma visitDet_frame (g : GraphState V σ) (i : Nat) :
    (visitDet g i).1.order = g.order ∧
    (visitDet g i).1.lagged = g.lagged ∧
    (visitDet g i).1.topics.length = g.topics.length := by
  unfold visitDet
  split
  · exact ⟨rfl, rfl, rfl⟩
  next d _ =>
    split
    · obtain ⟨f1, f2, f3, f4⟩ := subsFold_frame d i d.subs (g, d.state, [])
      obtain ⟨a1, a2, a3, a4, a5⟩ := applyPubs_frame
        (d.complete (d.subs.foldl (topicStep d i) (g, d.state, [])).2.1).2.1
        (d.subs.foldl (topicStep d i) (g, d.state, [])).1
      exact ⟨a2.trans f2, a3.trans f3, a4.trans f4⟩
    · exact ⟨rfl, rfl, rfl⟩

/-- A visit only rewrites the visited detector's private state: every
detector record keeps its wiring. -/
lemma visitDet_shape (g : GraphState V σ) (i : Nat) :
    ∀ j : Nat, ShapeEq (g.dets[j]?) ((visitDet g i).1.dets[j]?) := by
  intro j
  unfold visitDet
  split
  · exact shapeEq_refl _
  next d hd =>
    split
    · have key : (addFutures (applyPubs
            (d.subs.foldl (topicStep d i) (g, d.state, [])).1
            (d.complete (d.subs.foldl (topicStep d i) (g, d.state, [])).2.1).2.1)
            (d.complete (d.subs.foldl (topicStep d i) (g, d.state, [])).2.1).2.2).dets
          = g.dets := by
        obtain ⟨a1, _, _, _, _⟩ := applyPubs_frame
          (d.complete (d.subs.foldl (topicStep d i) (g, d.state, [])).2.1).2.1
          (d.subs.foldl (topicStep d i) (g, d.state, [])).1
        obtain ⟨f1, _, _, _⟩ := subsFold_frame d i d.subs (g, d.state, [])
        exact a1.trans f1
      show ShapeEq (g.dets[j]?)
        (((addFutures (applyPubs
            (d.subs.foldl (topicStep d i) (g, d.state, [])).1
            (d.complete (d.subs.foldl (topicStep d i) (g, d.state, [])).2.1).2.1)
            (d.complete (d.subs.foldl (topicStep d i) (g, d.state, [])).2.1).2.2).dets.set i
          { d with state :=
              (d.complete (d.subs.foldl (topicStep d i) (g, d.state, [])).2.1).1 })[j]?)
      rw [key]
      by_cases hij : j = i
      · subst hij
        have hlt : j < g.dets.length := getElem?_some_lt hd
        rw [List.getElem?_set_eq_of_lt _ hlt, hd]
        exact ⟨rfl, rfl, rfl, rfl⟩
      · rw [List.getElem?_set_ne (fun he => hij he.symm)]
        exact shapeEq_refl _
    · exact shapeEq_refl _

lemma traverseList_shape (l : List Nat) :
    ∀ (g : GraphState V σ) (j : Nat),
      ShapeEq (g.dets[j]?) ((traverseList g l).1.dets[j]?) := by
  induction l with
  | nil => intro g j; exact shapeEq_refl _
  | cons i l ih =>
    intro g j
    rw [traverseList_cons]
    exact shapeEq_trans (visitDet_shape g i j) (ih (visitDet g i).1 j)

lemma traverseList_frame (l : List Nat) :
    ∀ g : GraphState V σ,
      (traverseList g l).1.order = g.order ∧
      (traverseList g l).1.lagged = g.lagged ∧
      (traverseList g l).1.topics.length = g.topics.length := by
  induction l with
  | nil => intro g; exact ⟨rfl, rfl, rfl⟩
  | cons i l ih =>
    intro g
    rw [traverseList_cons]
    obtain ⟨h1, h2, h3⟩ := visitDet_frame g i
    obtain ⟨i1, i2, i3⟩ := ih (visitDet g i).1
    exact ⟨i1.trans h1, i2.trans h2, i3.trans h3⟩

/-- What a batch of publications does to one registered topic's
`new_values`: appends exactly the values published to it, in order. -/
lemma applyPubs_topicVals (ps : List (Nat × V)) :
    ∀ (g : GraphState V σ) (tid : Nat), tid < g.topics.length →
      topicVals (applyPubs g ps) tid
        = topicVals g tid ++ (ps.filter (fun p => p.1 == tid)).map Prod.snd := by
  induction ps with
  | nil => intro g tid _; simp [applyPubs]
  | cons p ps ih =>
    intro g tid hlt
    have hstep : topicVals (applyPubs g (p :: ps)) tid
        = topicVals (applyPubs (publish g p) ps) tid := rfl
    rw [hstep, ih (publish g p) tid (by rw [publish_topics_length]; exact hlt),
      publish_topicVals]
    by_cases hp : p.1 = tid
    · subst hp
      rw [if_pos ⟨rfl, hlt⟩, List.filter_cons_of_pos (by simp)]
      simp [List.append_assoc]
    · rw [if_neg (fun hc => hp hc.1.symm), List.filter_cons_of_neg (by simpa using hp)]
      simp

/-- Publications that avoid a topic leave its `new_values` unchanged. -/
lemma applyPubs_untouched (ps : List (Nat × V)) (tid : Nat)
    (h : ∀ p ∈ ps, p.1 ≠ tid) :
    ∀ g : GraphState V σ, topicVals (applyPubs g ps) tid = topicVals g tid := by
  induction ps with
  | nil => intro g; rfl
  | cons p ps ih =>
    intro g
    have hstep : topicVals (applyPubs g (p :: ps)) tid
        = topicVals (applyPubs (publish g p) ps) tid := rfl
    rw [hstep, ih (fun q hq => h q (by simp [hq])), publish_topicVals]
    rw [if_neg (fun hc => h p (by simp) hc.1.symm)]
    simp

/-- Futures that avoid a topic leave that topic's pending futures
unchanged. -/
lemma filter_append_none (fs : List (Nat × V)) (tid : Nat)
    (h : ∀ p ∈ fs, p.1 ≠ tid) (f0 : List (Nat × V)) :
    (f0 ++ fs).filter (fun p => p.1 == tid) = f0.filter (fun p => p.1 == tid) := by
  rw [List.filter_append]
  have : fs.filter (fun p => p.1 == tid) = [] := by
    rw [List.filter_eq_nil_iff]
    intro p hp
    simpa using h p hp
  rw [this, List.append_nil]

/-- One `Evaluate` call of a detector that does not publish to `tid`
leaves `tid`'s values and pending futures unchanged. -/
lemma evalStep_untouched (d : DetRec V σ) (i tid0 tid : Nat)
    (hok : DeclOK d) (hnot : tid ∉ d.pubs)
    (acc : GraphState V σ × σ × List (Event V)) (v : V) :
    topicVals (evalStep d i tid0 acc v).1 tid = topicVals acc.1 tid ∧
    (evalStep d i tid0 acc v).1.futures.filter (fun p => p.1 == tid)
      = acc.1.futures.filter (fun p => p.1 == tid) := by
  constructor
  · show topicVals (addFutures (applyPubs acc.1 (d.evaluate tid0 v acc.2.1).2.1)
        (d.evaluate tid0 v acc.2.1).2.2) tid = _
    rw [topicVals_addFutures]
    exact applyPubs_untouched _ tid
      (fun p hp hc => hnot (hc ▸ (hok.1 tid0 v acc.2.1).1 p hp)) acc.1
  · show ((applyPubs acc.1 (d.evaluate tid0 v acc.2.1).2.1).futures
        ++ (d.evaluate tid0 v acc.2.1).2.2).filter (fun p => p.1 == tid) = _
    rw [filter_append_none _ tid
      (fun p hp hc => hnot (hc ▸ (hok.1 tid0 v acc.2.1).2 p hp))]
    rw [(applyPubs_frame (d.evaluate tid0 v acc.2.1).2.1 acc.1).2.2.2.2]

lemma evalFold_untouched (d : DetRec V σ) (i tid0 tid : Nat)
    (hok : DeclOK d) (hnot : tid ∉ d.pubs) :
    ∀ (vs : List V) (acc : GraphState V σ × σ × List (Event V)),
      topicVals (vs.foldl (evalStep d i tid0) acc).1 tid = topicVals acc.1 tid ∧
      (vs.foldl (evalStep d i tid0) acc).1.futures.filter (fun p => p.1 == tid)
        = acc.1.futures.filter (fun p => p.1 == tid) := by
  intro vs
  induction vs with
  | nil => intro acc; exact ⟨rfl, rfl⟩
  | cons v vs ih =>
    intro acc
    obtain ⟨e1, e2⟩ := evalStep_untouched d i tid0 tid hok hnot acc v
    obtain ⟨i1, i2⟩ := ih (evalStep d i tid0 acc v)
    exact ⟨i1.trans e1, i2.trans e2⟩

lemma subsFold_untouched (d : DetRec V σ) (i tid : Nat)
    (hok : DeclOK d) (hnot : tid ∉ d.pubs) :
    ∀ (subs : List Nat) (acc : GraphState V σ × σ × List (Event V)),
      topicVals (subs.foldl (topicStep d i) acc).1 tid = topicVals acc.1 tid ∧
      (subs.foldl (topicStep d i) acc).1.futures.filter (fun p => p.1 == tid)
        = acc.1.futures.filter (fun p => p.1 == tid) := by
  intro subs
  induction subs with
  | nil => intro acc; exact ⟨rfl, rfl⟩
  | cons tid0 subs ih =>
    intro acc
    obtain ⟨e1, e2⟩ := evalFold_untouched d i tid0 tid hok hnot (topicVals acc.1 tid0) acc
    obtain ⟨i1, i2⟩ := ih (topicStep d i acc tid0)
    exact ⟨i1.trans e1, i2.trans e2⟩

/-- A visit of a detector that does not publish to `tid` leaves `tid`'s
values and pending futures unchanged. -/
lemma visitDet_untouched (g : GraphState V σ) (i tid : Nat)
    (h : ∀ d, g.dets[i]? = some d → DeclOK d ∧ tid ∉ d.pubs) :
    topicVals (visitDet g i).1 tid = topicVals g tid ∧
    (visitDet g i).1.futures.filter (fun p => p.1 == tid)
      = g.futures.filter (fun p => p.1 == tid) := by
  unfold visitDet
  split
  · exact ⟨rfl, rfl⟩
  next d hd =>
    obtain ⟨hok, hnot⟩ := h d hd
    split
    · constructor
      · show topicVals (addFutures (applyPubs
            (d.subs.foldl (topicStep d i) (g, d.state, [])).1
            (d.complete (d.subs.foldl (topicStep d i) (g, d.state, [])).2.1).2.1)
            (d.complete (d.subs.foldl (topicStep d i) (g, d.state, [])).2.1).2.2) tid = _
        rw [topicVals_addFutures]
        have e1 := applyPubs_untouched
          (d.complete (d.subs.foldl (topicStep d i) (g, d.state, [])).2.1).2.1 tid
          (fun p hp hc => hnot (hc ▸
            (hok.2 (d.subs.foldl (topicStep d i) (g, d.state, [])).2.1).1 p hp))
          (d.subs.foldl (topicStep d i) (g, d.state, [])).1
        have e2 := (subsFold_untouched d i tid hok hnot d.subs (g, d.state, [])).1
        exact e1.trans e2
      · show ((applyPubs (d.subs.foldl (topicStep d i) (g, d.state, [])).1
            (d.complete (d.subs.foldl (topicStep d i) (g, d.state, [])).2.1).2.1).futures
            ++ (d.complete (d.subs.foldl (topicStep d i) (g, d.state, [])).2.1).2.2).filter
            (fun p => p.1 == tid) = _
        rw [filter_append_none _ tid
          (fun p hp hc => hnot (hc ▸
            (hok.2 (d.subs.foldl (topicStep d i) (g, d.state, [])).2.1).2 p hp))]
        rw [(applyPubs_frame
          (d.complete (d.subs.foldl (topicStep d i) (g, d.state, [])).2.1).2.1
          (d.subs.foldl (topicStep d i) (g, d.state, [])).1).2.2.2.2]
        exact (subsFold_untouched d i tid hok hnot d.subs (g, d.state, [])).2
    · exact ⟨rfl, rfl⟩

/-- A traversal over detectors none of which publishes to `tid` leaves
`tid`'s values and pending futures unchanged. -/
lemma traverseList_untouched (tid : Nat) (l : List Nat) :
    ∀ g : GraphState V σ,
      (∀ j ∈ l, ∀ dj, g.dets[j]? = some dj → DeclOK dj ∧ tid ∉ dj.pubs) →
      topicVals (traverseList g l).1 tid = topicVals g tid ∧
      (traverseList g l).1.futures.filter (fun p => p.1 == tid)
        = g.futures.filter (fun p => p.1 == tid) := by
  induction l with
  | nil => intro g _; exact ⟨rfl, rfl⟩
  | cons i l ih =>
    intro g hg
    rw [traverseList_cons]
    obtain ⟨v1, v2⟩ := visitDet_untouched g i tid (fun d hd => hg i (by simp) d hd)
    have hg' : ∀ j ∈ l, ∀ dj, (visitDet g i).1.dets[j]? = some dj →
        DeclOK dj ∧ tid ∉ dj.pubs := by
      intro j hj dj hdj
      have hsh := visitDet_shape g i j
      cases hgd : g.dets[j]? with
      | none =>
        rw [hgd, hdj] at hsh
        exact absurd hsh (by simp [ShapeEq])
      | some dj0 =>
        rw [hgd, hdj] at hsh
        obtain ⟨hok0, hnot0⟩ := hg j (by simp [hj]) dj0 hgd
        exact ⟨declOK_of_shapeEq hsh hok0, hsh.2.1 ▸ hnot0⟩
    obtain ⟨i1, i2⟩ := ih (visitDet g i).1 hg'
    exact ⟨i1.trans v1, i2.trans v2⟩

/-- The dispatch fold over a Lag-style detector (its `Evaluate` only
buffers the value, publishing nothing) leaves the graph unchanged and
folds the buffer over the values. -/
lemma evalFold_lag (d : DetRec V σ) (i tid : Nat) (set : V → σ → σ)
    (heval : ∀ tid' v s, d.evaluate tid' v s = (set v s, [], [])) :
    ∀ (vs : List V) (acc : GraphState V σ × σ × List (Event V)),
      (vs.foldl (evalStep d i tid) acc).1 = acc.1 ∧
      (vs.foldl (evalStep d i tid) acc).2.1
        = vs.foldl (fun s v => set v s) acc.2.1 := by
  intro vs
  induction vs with
  | nil => intro acc; exact ⟨rfl, rfl⟩
  | cons v vs ih =>
    intro acc
    have hstep : evalStep d i tid acc v
        = (acc.1, set v acc.2.1, acc.2.2 ++ [Event.eval i tid v]) := by
      unfold evalStep
      rw [heval]
      unfold addFutures applyPubs
      simp
    rw [List.foldl_cons, hstep]
    obtain ⟨i1, i2⟩ := ih (acc.1, set v acc.2.1, acc.2.2 ++ [Event.eval i tid v])
    exact ⟨i1, i2⟩

/-- A one-slot buffer filled along a value sequence ends holding the last
value. -/
lemma foldl_set_getLast (get : σ → Option V) (set : V → σ → σ)
    (hgetset : ∀ v s, get (set v s) = some v) (vs : List V) (s0 : σ) (vlast : V)
    (hlast : vs.getLast? = some vlast) :
    get (vs.foldl (fun s v => set v s) s0) = some vlast := by
  rcases List.eq_nil_or_concat vs with rfl | ⟨ys, y, hy⟩
  · simp at hlast
  · rw [List.concat_eq_append] at hy
    subst hy
    rw [List.getLast?_concat] at hlast
    injection hlast with hlast
    subst hlast
    rw [List.foldl_append]
    simp [hgetset]

/-- The visit of a Lag detector: graph topics untouched, and exactly one
future publication — the wrapped last value of the subscribed topic —
appended for the next traversal. -/
lemma visitDet_lag (g : GraphState V σ) (li t lt : Nat) (wrap : V → V)
    (get : σ → Option V) (set : V → σ → σ) (d : DetRec V σ)
    (hd : g.dets[li]? = some d)
    (hsubs : d.subs = [t])
    (heval : ∀ tid v s, d.evaluate tid v s = (set v s, [], []))
    (hcomp : ∀ s, d.complete s = (s, [],
      match get s with | some v => [(lt, wrap v)] | none => []))
    (hgetset : ∀ v s, get (set v s) = some v)
    (vlast : V) (hvs : (topicVals g t).getLast? = some vlast) :
    (∀ tid, topicVals (visitDet g li).1 tid = topicVals g tid) ∧
    (visitDet g li).1.futures = g.futures ++ [(lt, wrap vlast)] := by
  have hne : topicVals g t ≠ [] := by
    intro hc
    rw [hc] at hvs
    simp at hvs
  have hdirty : anyDirty g d = true := by
    unfold anyDirty
    rw [hsubs]
    simp [List.isEmpty_iff]
    exact hne
  have hfold := evalFold_lag d li t set heval (topicVals g t) (g, d.state, [])
  have hres1 : (d.subs.foldl (topicStep d li) (g, d.state, [])).1 = g := by
    rw [hsubs]
    show (topicStep d li (g, d.state, []) t).1 = g
    exact hfold.1
  have hress : (d.subs.foldl (topicStep d li) (g, d.state, [])).2.1
      = (topicVals g t).foldl (fun s v => set v s) d.state := by
    rw [hsubs]
    show (topicStep d li (g, d.state, []) t).2.1 = _
    exact hfold.2
  have hget1 : get ((d.subs.foldl (topicStep d li) (g, d.state, [])).2.1) = some vlast := by
    rw [hress]
    exact foldl_set_getLast get set hgetset _ d.state vlast hvs
  have hout : d.complete (d.subs.foldl (topicStep d li) (g, d.state, [])).2.1
      = ((d.subs.foldl (topicStep d li) (g, d.state, [])).2.1, [],
         [(lt, wrap vlast)]) := by
    rw [hcomp, hget1]
  have hvisit : (visitDet g li).1
      = { g with
          futures := g.futures ++ [(lt, wrap vlast)],
          dets := g.dets.set li
            { d with state := (topicVals g t).foldl (fun s v => set v s) d.state } } := by
    unfold visitDet
    rw [hd]
    show ((if anyDirty g d = true then _ else _ : GraphState V σ × List (Event V))).1 = _
    rw [if_pos hdirty]
    show { addFutures (applyPubs (d.subs.foldl (topicStep d li) (g, d.state, [])).1
        (d.complete (d.subs.foldl (topicStep d li) (g, d.state, [])).2.1).2.1)
        (d.complete (d.subs.foldl (topicStep d li) (g, d.state, [])).2.1).2.2 with
        dets := (addFutures (applyPubs (d.subs.foldl (topicStep d li) (g, d.state, [])).1
          (d.complete (d.subs.foldl (topicStep d li) (g, d.state, [])).2.1).2.1)
          (d.complete (d.subs.foldl (topicStep d li) (g, d.state, [])).2.1).2.2).dets.set li
          { d with state :=
            (d.complete (d.subs.foldl (topicStep d li) (g, d.state, [])).2.1).1 } } = _
    rw [hout, hres1, hress]
    rfl
  constructor
  · intro tid
    rw [hvisit]
    rfl
  · rw [hvisit]

/-- In a duplicate-free list split as `p ++ x :: s`, the only position
holding `x` is `p.length`. -/
lemma nodup_pos_unique {l p s : List Nat} {x : Nat} (hnd : l.Nodup)
    (hsplit : l = p ++ x :: s) {k : Nat} (hk : l[k]? = some x) : k = p.length := by
  have hpos : l[p.length]? = some x := by
    rw [hsplit, List.getElem?_append_right (le_refl _)]
    simp
  have hklt : k < l.length := getElem?_some_lt hk
  have hplt : p.length < l.length := getElem?_some_lt hpos
  have hgk : l[k] = x := by
    rw [List.getElem?_eq_getElem hklt] at hk
    injection hk
  have hgp : l[p.length] = x := by
    rw [List.getElem?_eq_getElem hplt] at hpos
    injection hpos
  exact (List.Nodup.getElem_inj_iff hnd).mp (hgk.trans hgp.symm)

/-- An element at a position inside the first part of a split list belongs
to that part. -/
lemma pos_in_first_part {l p s : List Nat} {x j : Nat} (hsplit : l = p ++ x :: s)
    {k : Nat} (hk : k < p.length) (hj : l[k]? = some j) : j ∈ p := by
  subst hsplit
  rw [List.getElem?_append_left hk] at hj
  exact List.getElem?_mem hj

lemma seedPhase_frame (g : GraphState V σ) (ext : List (Nat × V)) :
    (seedPhase g ext).dets = g.dets ∧ (seedPhase g ext).order = g.order ∧
    (seedPhase g ext).lagged = g.lagged ∧
    (seedPhase g ext).topics.length = g.topics.length ∧
    (seedPhase g ext).futures = [] := by
  obtain ⟨h1, h2, h3, h4, h5⟩ :=
    applyPubs_frame (g.futures ++ ext) ({ g with futures := [] } : GraphState V σ)
  exact ⟨h1, h2, h3, h4, h5⟩

/-- Seeding appends to a registered topic exactly the seeded values aimed
at it, pending futures first. -/
lemma seedPhase_topicVals (g : GraphState V σ) (ext : List (Nat × V)) (tid : Nat)
    (hlt : tid < g.topics.length) :
    topicVals (seedPhase g ext) tid
      = topicVals g tid ++ ((g.futures ++ ext).filter (fun p => p.1 == tid)).map Prod.snd :=
  applyPubs_topicVals (g.futures ++ ext) { g with futures := [] } tid hlt

lemma consolidate_topicVals (g : GraphState V σ) (tid : Nat) :
    topicVals (consolidate g) tid = [] := by
  unfold topicVals consolidate
  simp only [List.getElem?_map]
  cases h : g.topics[tid]? with
  | none => simp
  | some r =>
    simp only [Option.map_some']
    cases hl : r.newValues.getLast? with
    | none =>
      have hnil : r.newValues = [] := List.getLast?_eq_none_iff.mp hl
      simp [hnil]
    | some v => simp

lemma consolidate_frame (g : GraphState V σ) :
    (consolidate g).dets = g.dets ∧ (consolidate g).order = g.order ∧
    (consolidate g).lagged = g.lagged ∧
    (consolidate g).topics.length = g.topics.length ∧
    (consolidate g).futures = g.futures := by
  refine ⟨rfl, rfl, rfl, ?_, rfl⟩
  unfold consolidate
  simp

end DetectorGraph

open DetectorGraph in
/-- Claim C1: values published to `Topic<T>` during traversal `k` are made
visible by the `Lag<T>` detector as `Lagged<T>` at the start of traversal
`k+1` and never within traversal `k` itself; with several values published
in traversal `k`, the delivered `Lagged<T>` value is the wrap of the last
one.  Concretely: (a) the traversal adds nothing to the `Lagged<T>`
topic's `new_values`; (b) the only pending future publication to it is
the wrapped last `T` value of the traversal; (c) after the seeding phase
of the next `ProcessData`, the `Lagged<T>` topic's `new_values` are
exactly that one value. -/
theorem claim_C1 {V σ : Type} (g0 : GraphState V σ) (t0 : Nat) (v0 : V)
    (li t lt : Nat) (wrap : V → V) (get : σ → Option V) (set : V → σ → σ)
    (d : DetRec V σ)
    (hd : g0.dets[li]? = some d)
    (hsubs : d.subs = [t]) (hpubs : d.pubs = [lt])
    (heval : ∀ tid v s, d.evaluate tid v s = (set v s, [], []))
    (hcomp : ∀ s, d.complete s = (s, [],
      match get s with | some v => [(lt, wrap v)] | none => []))
    (hgetset : ∀ v s, get (set v s) = some v)
    (hdecl : ∀ (j : Nat) (dj : DetRec V σ), g0.dets[j]? = some dj → DeclOK dj)
    (hnolt : ∀ (j : Nat) (dj : DetRec V σ), j ≠ li → g0.dets[j]? = some dj → lt ∉ dj.pubs)
    (hlag_t : g0.lagged t = false)
    (htlt : t ≠ lt)
    (hlt_topics : lt < g0.topics.length)
    (before after : List Nat)
    (horder : g0.order = before ++ li :: after)
    (hnd : g0.order.Nodup)
    (hresp : ∀ a b, hasEdge g0 a b = true →
      ∃ ka kb : Nat, ka < kb ∧ g0.order[ka]? = some a ∧ g0.order[kb]? = some b)
    (vlast : V)
    (hvlast : (topicVals (traverseList (seedPhase g0 [(t0, v0)])
        (seedPhase g0 [(t0, v0)]).order).1 t).getLast? = some vlast) :
    topicVals (traverseList (seedPhase g0 [(t0, v0)])
        (seedPhase g0 [(t0, v0)]).order).1 lt
      = topicVals (seedPhase g0 [(t0, v0)]) lt ∧
    (traverseList (seedPhase g0 [(t0, v0)])
        (seedPhase g0 [(t0, v0)]).order).1.futures.filter (fun p => p.1 == lt)
      = [(lt, wrap vlast)] ∧
    (∀ (t1 : Nat) (v1 : V), t1 ≠ lt →
      topicVals (seedPhase (processData g0 t0 v0).1 [(t1, v1)]) lt
        = [wrap vlast]) := by
  obtain ⟨hs_dets, hs_order, hs_lagged, hs_len, hs_futs⟩ := seedPhase_frame g0 [(t0, v0)]
  set g1 := seedPhase g0 [(t0, v0)] with hg1def
  set gmid := (traverseList g1 before).1 with hgmiddef
  set gi := (visitDet gmid li).1 with hgidef
  set gend := (traverseList gi after).1 with hgenddef
  have horder1 : g1.order = before ++ li :: after := by rw [hs_order, horder]
  have hdecomp : (traverseList g1 g1.order).1 = gend := by
    rw [horder1, traverseList_append, traverseList_cons]
  have hndsplit : (before ++ li :: after).Nodup := horder ▸ hnd
  have hli_nb : li ∉ before := by
    intro hmem
    exact (List.nodup_append.mp hndsplit).2.2 hmem (by simp)
  have hli_na : li ∉ after :=
    (List.nodup_cons.mp (List.nodup_append.mp hndsplit).2.1).1
  have hshape1 : ∀ j : Nat, ShapeEq (g0.dets[j]?) (gmid.dets[j]?) := by
    intro j
    have h2 := traverseList_shape before g1 j
    rw [hs_dets] at h2
    exact h2
  have hshape2 : ∀ j : Nat, ShapeEq (g0.dets[j]?) (gi.dets[j]?) := by
    intro j
    exact shapeEq_trans (hshape1 j) (visitDet_shape gmid li j)
  -- Phase A : the detectors before the Lag leave the Lagged topic alone
  have hA := traverseList_untouched lt before g1 (by
    intro j hj dj hdj
    rw [hs_dets] at hdj
    have hji : j ≠ li := fun hc => hli_nb (hc ▸ hj)
    exact ⟨hdecl j dj hdj, hnolt j dj hji hdj⟩)
  -- the Lag detector as found at its visit
  have hshape_li := hshape1 li
  rw [hd] at hshape_li
  cases hgd : gmid.dets[li]? with
  | none =>
    rw [hgd] at hshape_li
    exact absurd hshape_li (by simp [ShapeEq])
  | some d' =>
  rw [hgd] at hshape_li
  obtain ⟨hsub_eq, hpub_eq, hev_eq, hco_eq⟩ := hshape_li
  have hsubs' : d'.subs = [t] := by rw [← hsub_eq]; exact hsubs
  have hpubs' : d'.pubs = [lt] := by rw [← hpub_eq]; exact hpubs
  have heval' : ∀ tid v s, d'.evaluate tid v s = (set v s, [], []) := by
    intro tid v s
    rw [← hev_eq]
    exact heval tid v s
  have hcomp' : ∀ s, d'.complete s = (s, [],
      match get s with | some v => [(lt, wrap v)] | none => []) := by
    intro s
    rw [← hco_eq]
    exact hcomp s
  have hdecl' : DeclOK d' := declOK_of_shapeEq ⟨hsub_eq, hpub_eq, hev_eq, hco_eq⟩
    (hdecl li d hd)
  have htnotpubs' : t ∉ d'.pubs := by
    rw [hpubs']
    simpa using htlt
  -- detectors after the Lag publish neither t (by the order) nor lt
  have hafter_t : ∀ j ∈ after, ∀ dj : DetRec V σ, g0.dets[j]? = some dj → t ∉ dj.pubs := by
    intro j hj dj hdj hmemt
    have hedge : hasEdge g0 j li = true := by
      unfold hasEdge
      rw [hdj, hd]
      show dj.pubs.any (fun tid => !g0.lagged tid && d.subs.contains tid) = true
      refine List.any_eq_true.mpr ⟨t, hmemt, ?_⟩
      rw [hlag_t, hsubs]
      simp
    obtain ⟨kj, kli, hklt, hkj, hkli⟩ := hresp j li hedge
    have hkli_eq : kli = before.length := nodup_pos_unique hnd horder hkli
    have hjin : j ∈ before := pos_in_first_part horder (by omega) hkj
    exact (List.nodup_append.mp hndsplit).2.2 hjin (by simp [hj])
  have hafter_t_gi : ∀ j ∈ after, ∀ dj : DetRec V σ, gi.dets[j]? = some dj →
      DeclOK dj ∧ t ∉ dj.pubs := by
    intro j hj dj hdj
    have hsh := hshape2 j
    cases hgd0 : g0.dets[j]? with
    | none =>
      rw [hgd0, hdj] at hsh
      exact absurd hsh (by simp [ShapeEq])
    | some dj0 =>
      rw [hgd0, hdj] at hsh
      exact ⟨declOK_of_shapeEq hsh (hdecl j dj0 hgd0),
        hsh.2.1 ▸ hafter_t j hj dj0 hgd0⟩
  have hafter_lt_gi : ∀ j ∈ after, ∀ dj : DetRec V σ, gi.dets[j]? = some dj →
      DeclOK dj ∧ lt ∉ dj.pubs := by
    intro j hj dj hdj
    have hsh := hshape2 j
    cases hgd0 : g0.dets[j]? with
    | none =>
      rw [hgd0, hdj] at hsh
      exact absurd hsh (by simp [ShapeEq])
    | some dj0 =>
      rw [hgd0, hdj] at hsh
      have hji : j ≠ li := fun hc => hli_na (hc ▸ hj)
      exact ⟨declOK_of_shapeEq hsh (hdecl j dj0 hgd0),
        hsh.2.1 ▸ hnolt j dj0 hji hgd0⟩
  -- the last T value as the Lag's visit sees it
  have ht_vi : topicVals gi t = topicVals gmid t :=
    (visitDet_untouched gmid li t (by
      intro dx hdx
      rw [hgd] at hdx
      injection hdx with hdx
      subst hdx
      exact ⟨hdecl', htnotpubs'⟩)).1
  have ht_end : topicVals gend t = topicVals gi t :=
    (traverseList_untouched t after gi hafter_t_gi).1
  have hvmid : (topicVals gmid t).getLast? = some vlast := by
    rw [hdecomp] at hvlast
    rw [ht_end, ht_vi] at hvlast
    exact hvlast
  -- Phase B : the Lag's visit
  obtain ⟨hB_tv, hB_fut⟩ :=
    visitDet_lag gmid li t lt wrap get set d' hgd hsubs' heval' hcomp' hgetset vlast hvmid
  -- Phase C : the rest of the traversal
  have hC := traverseList_untouched lt after gi hafter_lt_gi
  have ha : topicVals gend lt = topicVals g1 lt := by
    rw [hC.1]
    rw [show topicVals gi lt = topicVals gmid lt from hB_tv lt]
    exact hA.1
  have hfilter_gi : gi.futures.filter (fun p => p.1 == lt) = [(lt, wrap vlast)] := by
    rw [show gi.futures = gmid.futures ++ [(lt, wrap vlast)] from hB_fut,
      List.filter_append, hA.2, hs_futs]
    simp
  have hb : gend.futures.filter (fun p => p.1 == lt) = [(lt, wrap vlast)] :=
    hC.2.trans hfilter_gi
  refine ⟨by rw [hdecomp]; exact ha, by rw [hdecomp]; exact hb, ?_⟩
  intro t1 v1 ht1
  have hpd : (processData g0 t0 v0).1 = consolidate gend := by
    show consolidate (traverseList g1 g1.order).1 = consolidate gend
    rw [hdecomp]
  rw [hpd]
  have hltlen : lt < (consolidate gend).topics.length := by
    rw [(consolidate_frame gend).2.2.2.1]
    have h1 := (traverseList_frame after gi).2.2
    have h2 := (visitDet_frame gmid li).2.2
    have h3 := (traverseList_frame before g1).2.2
    rw [hgenddef, h1, hgidef, h2, hgmiddef, h3, hs_len]
    exact hlt_topics
  rw [seedPhase_topicVals (consolidate gend) [(t1, v1)] lt hltlen]
  rw [consolidate_topicVals]
  rw [show (consolidate gend).futures = gend.futures from rfl]
  rw [List.filter_append, hb]
  have ht1f : ([(t1, v1)].filter (fun p => p.1 == lt)) = [] := by
    simp [ht1]
  rw [ht1f, List.append_nil]
  simp

open DetectorGraph in
/-- Claim C1, instantiated at the minimal Lag graph: seeding `T = 7` in
traversal `k` leaves `Lagged<T>` untouched during `k`, schedules the
single future `(1, 7)`, and the next seeding phase makes `Lagged<T>`'s
`new_values` exactly `[7]`. -/
theorem claim_C1_witness :
    topicVals (traverseList (seedPhase lagGraph [(0, 7)])
        (seedPhase lagGraph [(0, 7)]).order).1 1
      = topicVals (seedPhase lagGraph [(0, 7)]) 1 ∧
    (traverseList (seedPhase lagGraph [(0, 7)])
        (seedPhase lagGraph [(0, 7)]).order).1.futures.filter (fun p => p.1 == 1)
      = [(1, 7)] ∧
    (∀ (t1 : Nat) (v1 : Nat), t1 ≠ 1 →
      topicVals (seedPhase (processData lagGraph 0 7).1 [(t1, v1)]) 1 = [7]) :=
  claim_C1 lagGraph 0 7 0 0 1 (fun v => v) (fun s => s) (fun v _ => some v)
    ⟨[0], [1], fun _ v _ => (some v, [], []),
      fun s => (s, [], match s with | some v => [(1, v)] | none => []), none⟩
    rfl rfl rfl
    (fun _ _ _ => rfl)
    (fun s => by cases s <;> rfl)
    (fun _ _ => rfl)
    (by
      intro j dj hdj
      match j with
      | 0 =>
        have hdj' : dj = ⟨[0], [1], fun _ v _ => (some v, [], []),
            fun s => (s, [], match s with | some v => [(1, v)] | none => []),
            none⟩ := by
          have : lagGraph.dets[0]? = some ⟨[0], [1], fun _ v _ => (some v, [], []),
              fun s => (s, [], match s with | some v => [(1, v)] | none => []),
              none⟩ := rfl
          rw [this] at hdj
          injection hdj with h
          exact h.symm
        subst hdj'
        constructor
        · intro tid v s
          exact ⟨by simp, by simp⟩
        · intro s
          refine ⟨by simp, ?_⟩
          cases s with
          | none => simp
          | some v =>
            intro p hp
            simp only [List.mem_singleton] at hp
            simp [hp]
      | j + 1 => exact absurd hdj (by simp [lagGraph]))
    (by
      intro j dj hne hdj
      match j with
      | 0 => exact absurd rfl hne
      | j + 1 => exact absurd hdj (by simp [lagGraph]))
    rfl
    (by decide)
    (by decide)
    [] []
    rfl
    (by decide)
    (by
      intro a b h
      exfalso
      match a, b with
      | 0, 0 => simp [hasEdge, lagGraph] at h
      | 0, b + 1 => simp [hasEdge, lagGraph] at h
      | a + 1, b => simp [hasEdge, lagGraph] at h)
    7
    rfl

open SharedPayload in
/-- Claim C7: over any sequence of CoinBankManager inputs, the payload
store is never written (no operation mutates a shared lookup table), the
table reference held by the detector never changes, the published
sequence only ever grows — every update publishes a new `ChangeAvailable`
carrying a fresh stock copy and the same shared reference, leaving every
previously published payload value unchanged — and the two subscribers'
`Evaluate(ChangeAvailable)` copies leave the store unchanged. -/
theorem claim_C7 {P : Type} (m : CBMachine P) (evs : List CBEvent) :
    (evs.foldl cbmStep m).store = m.store ∧
    (evs.foldl cbmStep m).tableRef = m.tableRef ∧
    (∃ ext, (evs.foldl cbmStep m).published = m.published ++ ext) ∧
    (∀ (k : Nat) (r : ChangeAvailableRef), m.published[k]? = some r →
      (evs.foldl cbmStep m).published[k]? = some r) ∧
    (∀ (store : List P) (a old : ChangeAvailableRef),
      (saleProcessorEvalCA store a old).1 = store ∧
      (financesReportEvalCA store a old).1 = store) := by
  have main : ∀ (evs : List CBEvent) (m : CBMachine P),
      (evs.foldl cbmStep m).store = m.store ∧
      (evs.foldl cbmStep m).tableRef = m.tableRef ∧
      ∃ ext, (evs.foldl cbmStep m).published = m.published ++ ext := by
    intro evs
    induction evs with
    | nil => intro m; exact ⟨rfl, rfl, [], by simp⟩
    | cons e evs ih =>
      intro m
      obtain ⟨i1, i2, ext, i3⟩ := ih (cbmStep m e)
      have hstep : (cbmStep m e).store = m.store ∧ (cbmStep m e).tableRef = m.tableRef ∧
          ∃ ext0, (cbmStep m e).published = m.published ++ ext0 := by
        cases e with
        | returnChange n => exact ⟨rfl, rfl, [], by simp [cbmStep]⟩
        | refillChange refill => exact ⟨rfl, rfl, [], by simp [cbmStep]⟩
        | coinInserted coin => exact ⟨rfl, rfl, [], by simp [cbmStep]⟩
        | complete => exact ⟨rfl, rfl, [⟨m.mAvailable, m.tableRef⟩], rfl⟩
      obtain ⟨s1, s2, ext0, s3⟩ := hstep
      refine ⟨i1.trans s1, i2.trans s2, ext0 ++ ext, ?_⟩
      rw [List.foldl_cons, i3, s3, List.append_assoc]
  obtain ⟨h1, h2, ext, h3⟩ := main evs m
  refine ⟨h1, h2, ⟨ext, h3⟩, ?_, fun store a old => ⟨rfl, rfl⟩⟩
  intro k r hk
  rw [h3]
  have hklt : k < m.published.length := DetectorGraph.getElem?_some_lt hk
  rw [List.getElem?_append_left hklt]
  exact hk

open SharedPayload in
/-- Claim C7, instantiated: a machine with one stored payload, one
published value and a refill/insert/complete input sequence. -/
theorem claim_C7_witness :
    ((([CBEvent.refillChange [(5, 3)], CBEvent.coinInserted 25,
        CBEvent.complete]).foldl cbmStep
      (⟨[7], [⟨[(5, 1)], 0⟩], [(5, 1)], 0⟩ : CBMachine Nat)).store = [7]) ∧
    ((([CBEvent.refillChange [(5, 3)], CBEvent.coinInserted 25,
        CBEvent.complete]).foldl cbmStep
      (⟨[7], [⟨[(5, 1)], 0⟩], [(5, 1)], 0⟩ : CBMachine Nat)).tableRef = 0) ∧
    (∃ ext, (([CBEvent.refillChange [(5, 3)], CBEvent.coinInserted 25,
        CBEvent.complete]).foldl cbmStep
      (⟨[7], [⟨[(5, 1)], 0⟩], [(5, 1)], 0⟩ : CBMachine Nat)).published
        = [⟨[(5, 1)], 0⟩] ++ ext) ∧
    (∀ (k : Nat) (r : ChangeAvailableRef),
      ([(⟨[(5, 1)], 0⟩ : ChangeAvailableRef)])[k]? = some r →
      (([CBEvent.refillChange [(5, 3)], CBEvent.coinInserted 25,
        CBEvent.complete]).foldl cbmStep
        (⟨[7], [⟨[(5, 1)], 0⟩], [(5, 1)], 0⟩ : CBMachine Nat)).published[k]? = some r) ∧
    (∀ (store : List Nat) (a old : ChangeAvailableRef),
      (saleProcessorEvalCA store a old).1 = store ∧
      (financesReportEvalCA store a old).1 = store) :=
  claim_C7 (⟨[7], [⟨[(5, 1)], 0⟩], [(5, 1)], 0⟩ : CBMachine Nat)
    [CBEvent.refillChange [(5, 3)], CBEvent.coinInserted 25, CBEvent.complete]
